import Mathlib

/-!
Verification of the GPU-resident record store and statistics engine of the
atomese-simd repository (hash-indexed Word/Pair/Section pools and the
counting / mutual-information / section-extraction / cosine / substitution
kernel stages).

The OpenCL kernel sources (gpu-hashtable.cl, gpu-atomspace.cl,
gpu-counting.cl, gpu-mi.cl, gpu-sections.cl, gpu-cosine.cl,
gpu-substitute.cl) are not part of the source tree here; only the host-side
test harnesses (test-*.c) are.  Where a definition embeds code that is
present (the CPU reference functions cpu_mi, cpu_fnv1a_mix,
cpu_hash_disjunct, cpu_section_key in the harnesses) it is translated
directly from that C code.  The kernels themselves are modelled from the
specification, as recorded in each doc comment; dispatches are modelled as
sequential folds over work-item indices (the net effect the harnesses
observe after the inter-stage barrier), 64-bit machine integers as `Nat`
with explicit `% 2^64`, and `double` counters as `ℚ` (every value the
harnesses feed in or expect back is a small rational, so exact arithmetic
agrees with the doubles).  `log2` and `sqrt` results are modelled in `ℝ`.
-/

namespace AtomeseSimd

/-- The all-ones 64-bit sentinel `HT_EMPTY_KEY` from the harnesses. -/
def HT_EMPTY_KEY : Nat := 2 ^ 64 - 1

/-- FNV-1a initial offset, from `cpu_fnv1a_init` in test-sections.c. -/
def cpu_fnv1a_init : Nat := 0xcbf29ce484222325

/-- One FNV-1a mixing step, from `cpu_fnv1a_mix` in test-sections.c:
`hash ^= val; hash *= 0x100000001b3` in 64-bit arithmetic. -/
def cpu_fnv1a_mix (h v : Nat) : Nat :=
  ((h ^^^ v) * 0x100000001b3) % 2 ^ 64

/-- Connector encoding from `cpu_hash_disjunct`: `(word << 1) | dir`.
A connector is a (neighbor word id, direction bit) pair; for a direction
bit `dir < 2` the bitwise-or is plain addition. -/
def encodeConnector (c : Nat × Nat) : Nat := 2 * c.1 + c.2

/-- Disjunct hash from `cpu_hash_disjunct` in test-sections.c: FNV-1a over
the connector encodings in list order, with the sentinel remapped to 0. -/
def cpu_hash_disjunct (conns : List (Nat × Nat)) : Nat :=
  let h := conns.foldl (fun h c => cpu_fnv1a_mix h (encodeConnector c)) cpu_fnv1a_init
  if h = HT_EMPTY_KEY then 0 else h

/-- Section content key from `cpu_section_key` in test-sections.c:
`disjunct_hash ^ (word_idx * 0x9E3779B97F4A7C15)` in 64-bit arithmetic,
with the sentinel remapped to 0. -/
def cpu_section_key (word djh : Nat) : Nat :=
  let k := djh ^^^ ((word * 0x9E3779B97F4A7C15) % 2 ^ 64)
  if k = HT_EMPTY_KEY then 0 else k

/-- Canonical order for an unordered pair of word indices: numerically
smaller index first (§3 Pair). -/
def canonPair (x y : Nat) : Nat × Nat := if x ≤ y then (x, y) else (y, x)

/-- One slot of the Pair pool SoA arrays (pair_word_a, pair_word_b,
pair_count, pair_mi, pair_flags). -/
structure PairRec where
  a : Nat
  b : Nat
  count : ℚ
  mi : ℚ
  dirty : Bool
deriving DecidableEq

/-- State touched by the counting stage: the Pair pool (allocation order =
slot order, so `pool.length` is the bump counter `pair_next_free`), the
per-word marginal array `word_count`, and the global event counter
`total_pair_count`. -/
structure CountSt where
  pool : List PairRec
  marg : Nat → ℚ
  events : Nat

/-- The fresh state the harnesses' `reset_pools` produces. -/
def CountSt.init : CountSt := ⟨[], fun _ => 0, 0⟩

/-- Index lookup in the Pair pool by canonical endpoints; stands for the
pair hash index, which always maps the content key of a live pair to its
slot. -/
def pairIdx : List PairRec → Nat → Nat → Option Nat
  | [], _, _ => none
  | p :: ps, a, b =>
    if p.a = a ∧ p.b = b then some 0 else (pairIdx ps a b).map (· + 1)

/-- Rewrite slot `i` of a Pair pool in place. -/
def modifyAt (f : PairRec → PairRec) : List PairRec → Nat → List PairRec
  | [], _ => []
  | p :: ps, 0 => f p :: ps
  | p :: ps, i + 1 => p :: modifyAt f ps i

/-- Increment the count of slot `i` and set its dirty flag. -/
def incrCount (ps : List PairRec) (i : Nat) : List PairRec :=
  modifyAt (fun p => { p with count := p.count + 1, dirty := true }) ps i

/-- Atomic add of 1.0 to one word's marginal. -/
def bumpMarg (m : Nat → ℚ) (w : Nat) : Nat → ℚ :=
  fun v => if v = w then m v + 1 else m v

/-- Modelled from the spec: the gpu-counting.cl kernel body is absent.  One
pair-observation event (§4.3): find-or-create the canonical pair, add 1.0
to its count, set its dirty flag, add 1.0 to both endpoint marginals, and
bump the global event counter. -/
def countEvent (s : CountSt) (x y : Nat) : CountSt :=
  let ab := canonPair x y
  let pool' := match pairIdx s.pool ab.1 ab.2 with
    | some i => incrCount s.pool i
    | none => s.pool ++ [⟨ab.1, ab.2, 1, 0, true⟩]
  { pool := pool', marg := bumpMarg (bumpMarg s.marg x) y, events := s.events + 1 }

/-- Linear scan over the sentence offset/length arrays: the first sentence
whose span contains flat index `i` (§4.3). -/
def findSentLin : List Nat → List Nat → Nat → Option Nat
  | o :: os, l :: ls, i =>
    if o ≤ i ∧ i < o + l then some 0
    else (findSentLin os ls i).map (· + 1)
  | _, _, _ => none

/-- The window positions scanned from position `i`: every `j` in
`(i, i+w]` that stays below the owning sentence's end `send` (§4.3). -/
def windowEnds (i w send : Nat) : List Nat :=
  List.range' (i + 1) (min w (send - (i + 1)))

/-- Modelled from the spec: the gpu-counting.cl kernel body is absent.  The
work of one work-item of the counting dispatch: locate the sentence owning
flat position `i` with the supplied search routine, then record one count
event per in-window, in-sentence partner position (§4.3). -/
def processPos (find : List Nat → List Nat → Nat → Option Nat)
    (words off len : List Nat) (w : Nat) (s : CountSt) (i : Nat) : CountSt :=
  match find off len i with
  | none => s
  | some snt =>
      let send := off.getD snt 0 + len.getD snt 0
      (windowEnds i w send).foldl
        (fun st j => countEvent st (words.getD i 0) (words.getD j 0)) s

/-- Modelled from the spec: the gpu-counting.cl kernel `count_sentence_pairs`
is absent.  The linear-scan counting dispatch, one work-item per flat word
position (§4.3, §6). -/
def count_sentence_pairs (words off len : List Nat) (w : Nat) (s : CountSt) : CountSt :=
  (List.range words.length).foldl (processPos findSentLin words off len w) s

/-- Binary search for the last sentence index in `[lo, hi]` whose offset is
`≤ i`, assuming the offsets are sorted and `off[lo] ≤ i`; the fuel argument
bounds the interval-halving steps. -/
def bsearch (off : List Nat) (i : Nat) : Nat → Nat → Nat → Nat
  | 0, lo, _ => lo
  | fuel + 1, lo, hi =>
    if lo < hi then
      let mid := (lo + hi + 1) / 2
      if off.getD mid 0 ≤ i then bsearch off i fuel mid hi
      else bsearch off i fuel lo (mid - 1)
    else lo

/-- Modelled from the spec: the gpu-counting.cl kernel body is absent.
Sentence location for `count_sentence_pairs_large` (§4.3): binary-search
the sorted offset array for the owning sentence, then apply the same
in-sentence bound check as the linear variant. -/
def findSentBin (off len : List Nat) (i : Nat) : Option Nat :=
  if off.length = 0 then none
  else
    let s := bsearch off i off.length 0 (off.length - 1)
    if off.getD s 0 ≤ i ∧ i < off.getD s 0 + len.getD s 0 then some s else none

/-- Modelled from the spec: the gpu-counting.cl kernel
`count_sentence_pairs_large` is absent.  The binary-search counting
dispatch (§4.3, §6); identical to `count_sentence_pairs` except for the
sentence-location routine. -/
def count_sentence_pairs_large (words off len : List Nat) (w : Nat) (s : CountSt) : CountSt :=
  (List.range words.length).foldl (processPos findSentBin words off len w) s

/-- Modelled from the spec: the gpu-atomspace.cl kernel `pair_find_or_create`
is absent.  Find-or-create on the Pair pool (§4.2, §6): canonicalize the
endpoints, return the slot of an existing record with those endpoints, or
append a fresh zero-count record and return its slot. -/
def pair_find_or_create (pool : List PairRec) (x y : Nat) : List PairRec × Nat :=
  let ab := canonPair x y
  match pairIdx pool ab.1 ab.2 with
  | some i => (pool, i)
  | none => (pool ++ [⟨ab.1, ab.2, 0, 0, false⟩], pool.length)

/-- One counting-stage dispatch description: a tokenized batch plus the
choice between the linear-scan and binary-search kernels. -/
structure Batch where
  words : List Nat
  off : List Nat
  len : List Nat
  w : Nat
  useBin : Bool

/-- Run one counting dispatch. -/
def runBatch (s : CountSt) (b : Batch) : CountSt :=
  if b.useBin then count_sentence_pairs_large b.words b.off b.len b.w s
  else count_sentence_pairs b.words b.off b.len b.w s

/-- Run a sequence of counting dispatches (host barrier between each). -/
def runBatches (bs : List Batch) (s : CountSt) : CountSt :=
  bs.foldl runBatch s

/-- An operation that touches the Pair pool: a `pair_find_or_create` call
or a whole counting dispatch. -/
inductive PoolOp where
  | foc (x y : Nat)
  | batch (b : Batch)

/-- Apply one Pair-pool operation. -/
def applyOp (s : CountSt) : PoolOp → CountSt
  | .foc x y => { s with pool := (pair_find_or_create s.pool x y).1 }
  | .batch b => runBatch s b

/-- Run a sequence of Pair-pool operations. -/
def runOps (ops : List PoolOp) (s : CountSt) : CountSt :=
  ops.foldl applyOp s

/-- The CPU MI reference `cpu_mi` from test-mi.c, translated directly:
returns 0 when `count < 1.0` or a marginal or `n` is below `1e-10`, else
`log2(count*n/(left_marg*right_marg))`.  Counters are exact rationals here,
and the log2 result lives in `ℝ`. -/
noncomputable def cpu_mi (count left_marg right_marg n : ℚ) : ℝ :=
  if count < 1 ∨ left_marg < 1 / 10 ^ 10 ∨ right_marg < 1 / 10 ^ 10 ∨ n < 1 / 10 ^ 10 then 0
  else Real.logb 2 ((count * n / (left_marg * right_marg) : ℚ) : ℝ)

/-- Modelled from the spec: the gpu-mi.cl kernel source is absent.  The MI
value of one pair (§4.4): `log2(count*N/(marginal(a)*marginal(b)))`, and 0
whenever count, either marginal, or `N` is not strictly positive. -/
noncomputable def mi_formula (c ma mb n : ℚ) : ℝ :=
  if c ≤ 0 ∨ ma ≤ 0 ∨ mb ≤ 0 ∨ n ≤ 0 then 0
  else Real.logb 2 ((c * n / (ma * mb) : ℚ) : ℝ)

/-- Modelled from the spec: the gpu-mi.cl kernel `compute_mi_resident` is
absent.  Recompute the MI array entry of every pair slot below the
dispatch bound `np` unconditionally (§4.4, §6). -/
noncomputable def compute_mi_resident (wa wb : List Nat) (cnt : List ℚ) (marg : Nat → ℚ)
    (n : ℚ) (mi : List ℝ) (np : Nat) : List ℝ :=
  mi.mapIdx fun i v =>
    if i < np then mi_formula (cnt.getD i 0) (marg (wa.getD i 0)) (marg (wb.getD i 0)) n
    else v

/-- Modelled from the spec: the gpu-mi.cl kernel `compute_mi_dirty` is
absent.  Recompute MI only for slots below `np` whose dirty flag is set,
and clear that flag (§4.4). -/
noncomputable def compute_mi_dirty (wa wb : List Nat) (cnt : List ℚ) (marg : Nat → ℚ)
    (n : ℚ) (mi : List ℝ) (flags : List Bool) (np : Nat) : List ℝ × List Bool :=
  (mi.mapIdx fun i v =>
      if i < np ∧ flags.getD i false = true then
        mi_formula (cnt.getD i 0) (marg (wa.getD i 0)) (marg (wb.getD i 0)) n
      else v,
   flags.mapIdx fun i f => if i < np then false else f)

/-- Modelled from the spec: the gpu-substitute.cl kernel `assign_classes`
is absent.  Bulk-write a batch of (word index → class id) entries into the
Word pool's class-id array (§4.7); class id 0 is the "unassigned" fill
value the harness resets the array to. -/
def assign_classes (cls : Nat → Nat) (widx cids : List Nat) : Nat → Nat :=
  (widx.zip cids).foldl (fun m wc => fun v => if v = wc.1 then wc.2 else m v) cls

/-- Endpoint rewrite of §4.7: a word maps to its class id if one is
assigned, else to itself. -/
def resolveClass (cls : Nat → Nat) (w : Nat) : Nat :=
  if cls w = 0 then w else cls w

/-- Modelled from the spec: the gpu-substitute.cl kernel `substitute_pairs`
is absent.  Per-slot rewrite (§4.7): substitute both endpoints; a
resulting self-pair is eliminated in place (count and MI zeroed, dirty
cleared); otherwise the pair is re-canonicalized and, when it actually
changed, marked dirty. -/
def substPairRec (cls : Nat → Nat) (p : PairRec) : PairRec :=
  let a := resolveClass cls p.a
  let b := resolveClass cls p.b
  if a = b then { p with a := a, b := b, count := 0, mi := 0, dirty := false }
  else
    let ab := canonPair a b
    if ab.1 = p.a ∧ ab.2 = p.b then p
    else { p with a := ab.1, b := ab.2, dirty := true }

/-- Whether `substitute_pairs` eliminates slot `p` as a self-pair. -/
def substIsElim (cls : Nat → Nat) (p : PairRec) : Bool :=
  resolveClass cls p.a == resolveClass cls p.b

/-- Whether `substitute_pairs` counts slot `p` as changed. -/
def substIsChanged (cls : Nat → Nat) (p : PairRec) : Bool :=
  let a := resolveClass cls p.a
  let b := resolveClass cls p.b
  a != b && !((canonPair a b).1 == p.a && (canonPair a b).2 == p.b)

/-- Modelled from the spec: the gpu-substitute.cl kernel `substitute_pairs`
is absent.  The whole dispatch: every slot rewritten independently, with
the atomic `num_changed` and `num_eliminated` counters (§4.7, §6). -/
def substitute_pairs (cls : Nat → Nat) (pool : List PairRec) : List PairRec × Nat × Nat :=
  (pool.map (substPairRec cls), pool.countP (substIsChanged cls), pool.countP (substIsElim cls))

/-- State threaded through `rebuild_pair_index`: the pool, the freshly
cleared hash index being repopulated (canonical key → owning slot), and
the `num_merged` counter. -/
structure RebuildSt where
  pool : List PairRec
  index : List ((Nat × Nat) × Nat)
  merged : Nat

/-- Modelled from the spec: the gpu-substitute.cl kernel
`rebuild_pair_index` is absent.  One slot of the rebuild (§4.7): a slot
whose count is zero is dead and skipped; otherwise the slot claims its
canonical key if unclaimed, and else the earlier claimant accumulates this
slot's count, this slot is zeroed, and the merge counter is bumped. -/
def rebuildStep (st : RebuildSt) (i : Nat) : RebuildSt :=
  let p := st.pool.getD i ⟨0, 0, 0, 0, false⟩
  if p.count = 0 then st
  else
    match st.index.lookup (p.a, p.b) with
    | none => { st with index := st.index ++ [((p.a, p.b), i)] }
    | some j =>
        { st with
          pool := modifyAt (fun q => { q with count := 0 })
            (modifyAt (fun q => { q with count := q.count + p.count }) st.pool j) i,
          merged := st.merged + 1 }

/-- Modelled from the spec: the gpu-substitute.cl kernel
`rebuild_pair_index` is absent.  The whole rebuild dispatch over a pool of
possibly-colliding canonical keys, returning the merged pool and the
`num_merged` counter (§4.7, §6). -/
def rebuild_pair_index (pool : List PairRec) : List PairRec × Nat :=
  let st := (List.range pool.length).foldl rebuildStep ⟨pool, [], 0⟩
  (st.pool, st.merged)

/-- One slot of the Section pool SoA arrays (sec_word, sec_disjunct_hash,
sec_count). -/
structure SecRec where
  word : Nat
  djh : Nat
  count : ℚ
deriving DecidableEq

/-- Rewrite slot `i` of a Section pool in place. -/
def modifySecAt (f : SecRec → SecRec) : List SecRec → Nat → List SecRec
  | [], _ => []
  | r :: rs, 0 => f r :: rs
  | r :: rs, i + 1 => r :: modifySecAt f rs i

/-- Index lookup in the Section pool by content key; stands for the
section hash index, which maps `cpu_section_key word djh` to the slot. -/
def secIdx : List SecRec → Nat → Option Nat
  | [], _ => none
  | r :: rs, key =>
    if cpu_section_key r.word r.djh = key then some 0 else (secIdx rs key).map (· + 1)

/-- Modelled from the spec: the gpu-atomspace.cl kernel
`section_find_or_create` is absent.  Find-or-create on the Section pool
keyed by `cpu_section_key` and increment the record's count (§4.5, §6). -/
def section_find_or_create (pool : List SecRec) (word djh : Nat) : List SecRec × Nat :=
  match secIdx pool (cpu_section_key word djh) with
  | some i => (modifySecAt (fun r => { r with count := r.count + 1 }) pool i, i)
  | none => (pool ++ [⟨word, djh, 1⟩], pool.length)

/-- Modelled from the spec: the gpu-sections.cl kernel is absent.  The
connector list of the token at local position `plocal` of the sentence at
offset `soff`, one connector per incident MST edge: edge (p1,p2) gives p1 a
(word-at-p2, RIGHT=1) connector and p2 a (word-at-p1, LEFT=0) connector
(§4.5). -/
def connectorsOf (edges : List (Nat × Nat)) (words : List Nat) (soff plocal : Nat) :
    List (Nat × Nat) :=
  edges.filterMap fun e =>
    if e.1 = plocal then some (words.getD (soff + e.2) 0, 1)
    else if e.2 = plocal then some (words.getD (soff + e.1) 0, 0)
    else none

/-- Comparison on connectors by their 64-bit encoding. -/
def connRel (c c' : Nat × Nat) : Prop := encodeConnector c ≤ encodeConnector c'

instance : DecidableRel connRel := fun _ _ => inferInstanceAs (Decidable (_ ≤ _))

/-- Modelled from the spec: the gpu-sections.cl kernel is absent.  The
canonical connector order the kernel hashes (the harness comments in
test-sections.c list the expected connectors sorted by their encoding
before calling `cpu_hash_disjunct`). -/
def canonConns (l : List (Nat × Nat)) : List (Nat × Nat) := l.insertionSort connRel

/-- Modelled from the spec: the gpu-sections.cl kernel `extract_sections`
is absent.  One work-item: locate the owning sentence of position `i`,
build and canonically sort the token's connector list from the sentence's
edge slice, hash it, and find-or-create the Section (§4.5); tokens with no
incident edge produce no Section. -/
def extractPos (words off len : List Nat) (edges : List (Nat × Nat)) (eoff ecnt : List Nat)
    (pool : List SecRec) (i : Nat) : List SecRec :=
  match findSentLin off len i with
  | none => pool
  | some s =>
      let soff := off.getD s 0
      let sedges := (edges.drop (eoff.getD s 0)).take (ecnt.getD s 0)
      let conns := connectorsOf sedges words soff (i - soff)
      if conns = [] then pool
      else (section_find_or_create pool (words.getD i 0) (cpu_hash_disjunct (canonConns conns))).1

/-- Modelled from the spec: the gpu-sections.cl kernel `extract_sections`
is absent.  The whole dispatch, one work-item per token position (§4.5,
§6). -/
def extract_sections (words off len : List Nat) (edges : List (Nat × Nat))
    (eoff ecnt : List Nat) (pool : List SecRec) : List SecRec :=
  (List.range words.length).foldl (extractPos words off len edges eoff ecnt) pool

/-- Modelled from the spec: the gpu-cosine.cl kernel `compute_word_norms`
is absent.  The accumulated norm² of a word: the sum of `count²` over the
word's Sections (§4.6 step 1). -/
def compute_word_norms (pool : List SecRec) : Nat → ℚ :=
  fun w => ((pool.filter fun r => r.word == w).map fun r => r.count * r.count).sum

/-- One slot of the Candidate pool SoA arrays (cand_word_a, cand_word_b,
cand_dot). -/
structure CandRec where
  a : Nat
  b : Nat
  dot : ℚ
deriving DecidableEq

/-- Index lookup in the Candidate pool by canonical endpoints; stands for
the candidate hash index. -/
def candIdx : List CandRec → Nat → Nat → Option Nat
  | [], _, _ => none
  | c :: cs, a, b =>
    if c.a = a ∧ c.b = b then some 0 else (candIdx cs a b).map (· + 1)

/-- Rewrite slot `i` of a Candidate pool in place. -/
def modifyCandAt (f : CandRec → CandRec) : List CandRec → Nat → List CandRec
  | [], _ => []
  | c :: cs, 0 => f c :: cs
  | c :: cs, i + 1 => c :: modifyCandAt f cs i

/-- Find-or-create the candidate for canonical key `k` and atomically add
`v` to its dot-product accumulator (§4.6 step 3). -/
def addDot (cands : List CandRec) (k : Nat × Nat) (v : ℚ) : List CandRec :=
  match candIdx cands k.1 k.2 with
  | some i => modifyCandAt (fun c => { c with dot := c.dot + v }) cands i
  | none => cands ++ [⟨k.1, k.2, v⟩]

/-- Modelled from the spec: the gpu-cosine.cl kernel is absent.  The
contribution list of the chain walks (§4.6 steps 2-3): every unordered
slot pair sharing a disjunct hash and belonging to two different words
contributes `count_a * count_b` exactly once, under its canonical word
pair (the contract stated in §4.6: the final dot product of (A,B) is the
sum over shared disjuncts of `count(A,d)*count(B,d)`). -/
def pairContribs (prev : List SecRec) (x : SecRec) : List ((Nat × Nat) × ℚ) :=
  prev.filterMap fun y =>
    if y.djh = x.djh ∧ y.word ≠ x.word then
      some (canonPair y.word x.word, y.count * x.count)
    else none

/-- Modelled from the spec: the walk over the whole Section pool, slot by
slot, each slot pairing against every earlier slot. -/
def candContribsAux : List SecRec → List SecRec → List ((Nat × Nat) × ℚ)
  | _, [] => []
  | prev, x :: xs => pairContribs prev x ++ candContribsAux (prev ++ [x]) xs

def candContribs (pool : List SecRec) : List ((Nat × Nat) × ℚ) :=
  candContribsAux [] pool

/-- Modelled from the spec: the gpu-cosine.cl kernel
`accumulate_dot_products` is absent.  The whole dispatch: fold the
contributions into the deduplicated Candidate pool (§4.6 step 3). -/
def accumulate_dot_products (pool : List SecRec) : List CandRec :=
  (candContribs pool).foldl (fun cs kv => addDot cs kv.1 kv.2) []

/-- Modelled from the spec: the gpu-cosine.cl kernel `compute_cosines` is
absent.  Per candidate: `dot / sqrt(normA * normB)`, and 0 when a norm is
zero (§4.6 step 4). -/
noncomputable def compute_cosines (cands : List CandRec) (norm2 : Nat → ℚ) : List ℝ :=
  cands.map fun c =>
    if norm2 c.a = 0 ∨ norm2 c.b = 0 then 0
    else (c.dot : ℝ) / Real.sqrt ((norm2 c.a * norm2 c.b : ℚ) : ℝ)

/-- Claim C4: `count_sentence_pairs` on the single sentence [0,1,2,3] with
window 2 creates exactly the 5 pairs (0,1),(0,2),(1,2),(1,3),(2,3) (each
with count 1), records exactly 5 count events, and leaves word marginals
[2,3,3,2]; and on the 2-sentence batch [0,1,2,3] + [4,5,6] it creates
exactly 8 pairs and 8 events, none of them with one endpoint in each
sentence. -/
theorem counting_window_concrete :
    (count_sentence_pairs [0, 1, 2, 3] [0] [4] 2 .init).pool.map (fun p => (p.a, p.b)) =
        [(0, 1), (0, 2), (1, 2), (1, 3), (2, 3)] ∧
      (count_sentence_pairs [0, 1, 2, 3] [0] [4] 2 .init).events = 5 ∧
      ((count_sentence_pairs [0, 1, 2, 3] [0] [4] 2 .init).pool.map fun p => p.count) =
        [1, 1, 1, 1, 1] ∧
      (count_sentence_pairs [0, 1, 2, 3] [0] [4] 2 .init).marg 0 = 2 ∧
      (count_sentence_pairs [0, 1, 2, 3] [0] [4] 2 .init).marg 1 = 3 ∧
      (count_sentence_pairs [0, 1, 2, 3] [0] [4] 2 .init).marg 2 = 3 ∧
      (count_sentence_pairs [0, 1, 2, 3] [0] [4] 2 .init).marg 3 = 2 ∧
      (count_sentence_pairs [0, 1, 2, 3, 4, 5, 6] [0, 4] [4, 3] 2 .init).pool.length = 8 ∧
      (count_sentence_pairs [0, 1, 2, 3, 4, 5, 6] [0, 4] [4, 3] 2 .init).events = 8 ∧
      ∀ p ∈ (count_sentence_pairs [0, 1, 2, 3, 4, 5, 6] [0, 4] [4, 3] 2 .init).pool,
        (p.a ≤ 3 ∧ p.b ≤ 3) ∨ (4 ≤ p.a ∧ 4 ≤ p.b) := by
  have hrw : count_sentence_pairs [0, 1, 2, 3] [0] [4] 2 .init =
      List.foldl (processPos findSentLin [0, 1, 2, 3] [0] [4] 2) .init [0, 1, 2, 3] := rfl
  refine ⟨by decide, by decide, ?_, ?_, ?_, ?_, ?_, by decide, by decide, by decide⟩ <;>
    rw [hrw] <;>
    norm_num [processPos, countEvent, windowEnds, findSentLin, pairIdx, incrCount,
      modifyAt, bumpMarg, canonPair, CountSt.init, List.findIdx?, List.range']

/-- Claim C1: starting from the pool holding (10,30) with count 5 and
(20,30) with count 3 (in either slot order), `assign_classes` with
{10→100, 20→100} followed by `substitute_pairs` and `rebuild_pair_index`
leaves exactly one live (30,100) slot with count 8, zeroes the other slot,
reports one merge, and conserves the total count mass at 8; and for the
pool holding only (10,20) with count 7 under the same class map,
`substitute_pairs` zeroes that pair's count and reports one elimination. -/
theorem substitution_merge_concrete :
    ((rebuild_pair_index (substitute_pairs
          (assign_classes (fun _ => 0) [10, 20] [100, 100])
          [⟨10, 30, 5, 5/2, false⟩, ⟨20, 30, 3, 3/2, false⟩]).1).1.map
        (fun p => ((p.a, p.b), p.count)) = [((30, 100), 8), ((30, 100), 0)] ∧
      (rebuild_pair_index (substitute_pairs
          (assign_classes (fun _ => 0) [10, 20] [100, 100])
          [⟨10, 30, 5, 5/2, false⟩, ⟨20, 30, 3, 3/2, false⟩]).1).2 = 1 ∧
      (((rebuild_pair_index (substitute_pairs
          (assign_classes (fun _ => 0) [10, 20] [100, 100])
          [⟨10, 30, 5, 5/2, false⟩, ⟨20, 30, 3, 3/2, false⟩]).1).1.map
        fun p => p.count).sum = 8)) ∧
    ((rebuild_pair_index (substitute_pairs
          (assign_classes (fun _ => 0) [10, 20] [100, 100])
          [⟨20, 30, 3, 3/2, false⟩, ⟨10, 30, 5, 5/2, false⟩]).1).1.map
        (fun p => ((p.a, p.b), p.count)) = [((30, 100), 8), ((30, 100), 0)] ∧
      (rebuild_pair_index (substitute_pairs
          (assign_classes (fun _ => 0) [10, 20] [100, 100])
          [⟨20, 30, 3, 3/2, false⟩, ⟨10, 30, 5, 5/2, false⟩]).1).2 = 1 ∧
      (((rebuild_pair_index (substitute_pairs
          (assign_classes (fun _ => 0) [10, 20] [100, 100])
          [⟨20, 30, 3, 3/2, false⟩, ⟨10, 30, 5, 5/2, false⟩]).1).1.map
        fun p => p.count).sum = 8)) ∧
    (((substitute_pairs (assign_classes (fun _ => 0) [10, 20] [100, 100])
        [⟨10, 20, 7, 3, false⟩]).1.map fun p => p.count) = [0] ∧
      (substitute_pairs (assign_classes (fun _ => 0) [10, 20] [100, 100])
        [⟨10, 20, 7, 3, false⟩]).2.2 = 1) := by
  refine ⟨⟨?_, ?_, ?_⟩, ⟨?_, ?_, ?_⟩, ?_, ?_⟩ <;>
    norm_num [rebuild_pair_index, show List.range 2 = [0, 1] from rfl, rebuildStep,
      substitute_pairs, substPairRec, substIsElim, assign_classes, resolveClass,
      canonPair, modifyAt, List.lookup]

/-- Claim C7: running `extract_sections` twice on the 3-word chain parse
(words [10,20,30], edges (0,1),(1,2)) without resetting state yields
exactly 3 Section records — for words 10, 20, 30 — each with count 2, not
6 records; and the same disjunct hash attached to two different words
find-or-creates two distinct Section records (distinct slots). -/
theorem section_dedup_concrete :
    (extract_sections [10, 20, 30] [0] [3] [(0, 1), (1, 2)] [0] [2]
        (extract_sections [10, 20, 30] [0] [3] [(0, 1), (1, 2)] [0] [2] [])).length = 3 ∧
      (extract_sections [10, 20, 30] [0] [3] [(0, 1), (1, 2)] [0] [2]
        (extract_sections [10, 20, 30] [0] [3] [(0, 1), (1, 2)] [0] [2] [])).map
        (fun r => r.word) = [10, 20, 30] ∧
      (extract_sections [10, 20, 30] [0] [3] [(0, 1), (1, 2)] [0] [2]
        (extract_sections [10, 20, 30] [0] [3] [(0, 1), (1, 2)] [0] [2] [])).map
        (fun r => r.count) = [2, 2, 2] ∧
      (section_find_or_create (section_find_or_create [] 0 0x2222222222222222).1
        6 0x2222222222222222).1.map (fun r => r.word) = [0, 6] ∧
      (section_find_or_create [] 0 0x2222222222222222).2 = 0 ∧
      (section_find_or_create (section_find_or_create [] 0 0x2222222222222222).1
        6 0x2222222222222222).2 = 1 := by
  have hc :
      (extract_sections [10, 20, 30] [0] [3] [(0, 1), (1, 2)] [0] [2]
        (extract_sections [10, 20, 30] [0] [3] [(0, 1), (1, 2)] [0] [2] [])).map
        (fun r => r.count) = [1 + 1, 1 + 1, 1 + 1] := rfl
  refine ⟨by decide, by decide, ?_, by decide, by decide, by decide⟩
  rw [hc]; norm_num

theorem foldl_preserve {α : Type} {σ : Type} (P : σ → Prop) (f : σ → α → σ)
    (h : ∀ s a, P s → P (f s a)) : ∀ (l : List α) (s : σ), P s → P (l.foldl f s) := by
  intro l
  induction l with
  | nil => intro s hs; exact hs
  | cons a l ih => intro s hs; exact ih (f s a) (h s a hs)

theorem canonPair_comm (x y : Nat) : canonPair x y = canonPair y x := by
  simp only [canonPair]
  split <;> split <;> simp_all [Prod.ext_iff] <;> omega

theorem canonPair_le (x y : Nat) : (canonPair x y).1 ≤ (canonPair x y).2 := by
  simp only [canonPair]; split <;> simp <;> omega

theorem mem_modifyAt_imp (f : PairRec → PairRec) (P : PairRec → Prop)
    (hf : ∀ p, P p → P (f p)) :
    ∀ ps i, (∀ p ∈ ps, P p) → ∀ q ∈ modifyAt f ps i, P q := by
  intro ps
  induction ps with
  | nil => intro i _ q hq; simp [modifyAt] at hq
  | cons p ps ih =>
      intro i h q hq
      cases i with
      | zero =>
          rcases List.mem_cons.mp hq with rfl | hq
          · exact hf p (h p (by simp))
          · exact h q (by simp [hq])
      | succ i =>
          rcases List.mem_cons.mp hq with rfl | hq
          · exact h q (by simp)
          · exact ih i (fun r hr => h r (by simp [hr])) q hq

/-- Total count mass of a Pair pool: the sum of the count fields over all
allocated slots. -/
def totalCount (pool : List PairRec) : ℚ := (pool.map fun p => p.count).sum

theorem totalCount_append (ps qs : List PairRec) :
    totalCount (ps ++ qs) = totalCount ps + totalCount qs := by
  simp [totalCount]

theorem totalCount_incrCount (ps : List PairRec) (i : Nat) (h : i < ps.length) :
    totalCount (incrCount ps i) = totalCount ps + 1 := by
  induction ps generalizing i with
  | nil => simp at h
  | cons p ps ih =>
      cases i with
      | zero => simp [incrCount, modifyAt, totalCount]; ring
      | succ i =>
          have := ih i (by simpa using h)
          simp only [incrCount, modifyAt] at this ⊢
          simp only [totalCount, List.map_cons, List.sum_cons] at this ⊢
          rw [this]; ring

theorem pairIdx_lt : ∀ (pool : List PairRec) (a b i : Nat),
    pairIdx pool a b = some i → i < pool.length := by
  intro pool
  induction pool with
  | nil => intro a b i h; simp [pairIdx] at h
  | cons p ps ih =>
      intro a b i h
      simp only [pairIdx] at h
      split at h
      · cases h; simp
      · rcases Option.map_eq_some'.mp h with ⟨j, hj, rfl⟩
        have := ih a b j hj
        simp only [List.length_cons]; omega

/-- The counting-stage conservation invariant of C10: the global event
counter equals the total count mass, and every allocated pair has positive
count and a set dirty flag. -/
def countingInv (s : CountSt) : Prop :=
  (s.events : ℚ) = totalCount s.pool ∧ ∀ p ∈ s.pool, 0 < p.count ∧ p.dirty = true

theorem countEvent_inv (s : CountSt) (x y : Nat) (h : countingInv s) :
    countingInv (countEvent s x y) := by
  obtain ⟨he, hp⟩ := h
  rcases hidx : pairIdx s.pool (canonPair x y).1 (canonPair x y).2 with _ | i <;>
    simp only [countingInv, countEvent, hidx]
  · refine ⟨?_, ?_⟩
    · rw [totalCount_append, ← he]
      simp only [totalCount, List.map_cons, List.map_nil, List.sum_cons, List.sum_nil]
      push_cast
      ring
    · intro p hp'
      rcases List.mem_append.mp hp' with h1 | h1
      · exact hp p h1
      · simp only [List.mem_singleton] at h1; subst h1
        exact ⟨by norm_num, rfl⟩
  · refine ⟨?_, ?_⟩
    · rw [totalCount_incrCount _ _ (pairIdx_lt _ _ _ _ hidx), ← he]
      push_cast
      ring
    · exact mem_modifyAt_imp _ _
        (fun p h => ⟨by have := h.1; positivity, rfl⟩) s.pool i hp

theorem processPos_inv (find : List Nat → List Nat → Nat → Option Nat)
    (words off len : List Nat) (w : Nat) (s : CountSt) (i : Nat)
    (h : countingInv s) : countingInv (processPos find words off len w s i) := by
  simp only [processPos]
  cases find off len i with
  | none => exact h
  | some snt =>
      exact foldl_preserve countingInv _
        (fun st j hst => countEvent_inv st _ _ hst) _ s h

theorem runBatch_inv (s : CountSt) (b : Batch) (h : countingInv s) :
    countingInv (runBatch s b) := by
  simp only [runBatch]
  split
  · exact foldl_preserve countingInv _
      (fun st i hst => processPos_inv _ _ _ _ _ st i hst) _ s h
  · exact foldl_preserve countingInv _
      (fun st i hst => processPos_inv _ _ _ _ _ st i hst) _ s h

/-- Claim C10: starting from a freshly reset Pair pool, after any sequence
of `count_sentence_pairs` / `count_sentence_pairs_large` dispatches the
global event counter equals the sum of the count fields over all
allocated pairs, every allocated pair has count > 0, and its dirty flag is
set. -/
theorem counting_conservation (bs : List Batch) :
    ((runBatches bs .init).events : ℚ) = totalCount (runBatches bs .init).pool ∧
      ∀ p ∈ (runBatches bs .init).pool, 0 < p.count ∧ p.dirty = true := by
  have h : countingInv (runBatches bs .init) := by
    unfold runBatches
    exact foldl_preserve countingInv runBatch runBatch_inv bs .init
      ⟨by simp [totalCount, CountSt.init], by simp [CountSt.init]⟩
  exact h

/-- The canonical-order invariant of C6 on a Pair pool. -/
def allCanonical (pool : List PairRec) : Prop := ∀ p ∈ pool, p.a ≤ p.b

theorem countEvent_canon (s : CountSt) (x y : Nat) (h : allCanonical s.pool) :
    allCanonical (countEvent s x y).pool := by
  rcases hidx : pairIdx s.pool (canonPair x y).1 (canonPair x y).2 with _ | i <;>
    simp only [allCanonical, countEvent, hidx]
  · intro p hp
    rcases List.mem_append.mp hp with h1 | h1
    · exact h p h1
    · simp only [List.mem_singleton] at h1; subst h1
      exact canonPair_le x y
  · exact mem_modifyAt_imp (fun p => { p with count := p.count + 1, dirty := true }) _
      (fun p hp => hp) s.pool i h

theorem processPos_canon (find : List Nat → List Nat → Nat → Option Nat)
    (words off len : List Nat) (w : Nat) (s : CountSt) (i : Nat)
    (h : allCanonical s.pool) : allCanonical (processPos find words off len w s i).pool := by
  simp only [processPos]
  cases find off len i with
  | none => exact h
  | some snt =>
      exact foldl_preserve (fun st => allCanonical st.pool) _
        (fun st j hst => countEvent_canon st _ _ hst) _ s h

theorem applyOp_canon (s : CountSt) (op : PoolOp) (h : allCanonical s.pool) :
    allCanonical (applyOp s op).pool := by
  cases op with
  | foc x y =>
      rcases hidx : pairIdx s.pool (canonPair x y).1 (canonPair x y).2 with _ | i <;>
        simp only [allCanonical, applyOp, pair_find_or_create, hidx]
      · intro p hp
        rcases List.mem_append.mp hp with h1 | h1
        · exact h p h1
        · simp only [List.mem_singleton] at h1; subst h1
          exact canonPair_le x y
      · exact h
  | batch b =>
      simp only [applyOp, runBatch]
      split
      · exact foldl_preserve (fun st => allCanonical st.pool) _
          (fun st i hst => processPos_canon _ _ _ _ _ st i hst) _ s h
      · exact foldl_preserve (fun st => allCanonical st.pool) _
          (fun st i hst => processPos_canon _ _ _ _ _ st i hst) _ s h

/-- Claim C6: pair creation is commutative in its endpoints —
`pair_find_or_create` returns the same pool and the same slot for (x,y)
and (y,x) — and after any sequence of create/count operations on a fresh
pool every pair record is stored canonically with `a ≤ b`. -/
theorem pair_canonical_commutative :
    (∀ (pool : List PairRec) (x y : Nat),
        pair_find_or_create pool x y = pair_find_or_create pool y x) ∧
      ∀ ops : List PoolOp, ∀ p ∈ (runOps ops .init).pool, p.a ≤ p.b := by
  constructor
  · intro pool x y
    simp only [pair_find_or_create, canonPair_comm x y]
  · intro ops
    exact foldl_preserve (fun st => allCanonical st.pool) applyOp applyOp_canon ops .init
      (by simp [CountSt.init, allCanonical])

theorem getD_mapIdx {α β : Type} (l : List α) (f : Nat → α → β) (i : Nat) (d : β) (dl : α)
    (h : i < l.length) : (l.mapIdx f).getD i d = f i (l.getD i dl) := by
  rw [List.getD_eq_getElem?_getD, List.getElem?_mapIdx, List.getD_eq_getElem?_getD]
  simp [List.getElem?_eq_getElem h]

/-- Claim C9: `compute_mi_dirty` recomputes MI only for pairs whose dirty
flag is set and clears that flag: after the dispatch every covered pair's
dirty flag is 0, every pair that was dirty has its MI recomputed from the
current counts, marginals and `N`, and the MI of every pair that was not
dirty is left unchanged. -/
theorem mi_dirty_frame (wa wb : List Nat) (cnt : List ℚ) (marg : Nat → ℚ) (n : ℚ)
    (mi : List ℝ) (flags : List Bool) (np i : Nat)
    (hi : i < mi.length) (hf : i < flags.length) :
    (i < np → (compute_mi_dirty wa wb cnt marg n mi flags np).2.getD i true = false) ∧
      (i < np → flags.getD i false = true →
        (compute_mi_dirty wa wb cnt marg n mi flags np).1.getD i 0 =
          mi_formula (cnt.getD i 0) (marg (wa.getD i 0)) (marg (wb.getD i 0)) n) ∧
      (flags.getD i false = false →
        (compute_mi_dirty wa wb cnt marg n mi flags np).1.getD i 0 = mi.getD i 0) := by
  refine ⟨?_, ?_, ?_⟩
  · intro hnp
    rw [show (compute_mi_dirty wa wb cnt marg n mi flags np).2 =
        flags.mapIdx (fun i f => if i < np then false else f) from rfl]
    rw [getD_mapIdx flags _ i true false hf]
    simp [hnp]
  · intro hnp hdirty
    rw [show (compute_mi_dirty wa wb cnt marg n mi flags np).1 =
        mi.mapIdx (fun i v => if i < np ∧ flags.getD i false = true then
          mi_formula (cnt.getD i 0) (marg (wa.getD i 0)) (marg (wb.getD i 0)) n else v)
        from rfl]
    rw [getD_mapIdx mi _ i 0 0 hi, if_pos ⟨hnp, hdirty⟩]
  · intro hclean
    rw [show (compute_mi_dirty wa wb cnt marg n mi flags np).1 =
        mi.mapIdx (fun i v => if i < np ∧ flags.getD i false = true then
          mi_formula (cnt.getD i 0) (marg (wa.getD i 0)) (marg (wb.getD i 0)) n else v)
        from rfl]
    rw [getD_mapIdx mi _ i 0 0 hi,
      if_neg (by rintro ⟨-, h2⟩; rw [hclean] at h2; exact absurd h2 (by decide))]

theorem mi_dirty_frame_witness :
    (compute_mi_dirty [0] [1] [2] (fun _ => 3) 4 [(5 : ℝ)] [true] 1).2.getD 0 true = false ∧
      (compute_mi_dirty [0] [1] [2] (fun _ => 3) 4 [(5 : ℝ)] [true] 1).1.getD 0 0 =
        mi_formula 2 3 3 4 ∧
      (compute_mi_dirty [0] [1] [2] (fun _ => 3) 4 [(5 : ℝ)] [false] 1).1.getD 0 0 = 5 :=
  ⟨(mi_dirty_frame [0] [1] [2] (fun _ => 3) 4 [(5 : ℝ)] [true] 1 0
      (by decide) (by decide)).1 (by decide),
   (mi_dirty_frame [0] [1] [2] (fun _ => 3) 4 [(5 : ℝ)] [true] 1 0
      (by decide) (by decide)).2.1 (by decide) (by decide),
   (mi_dirty_frame [0] [1] [2] (fun _ => 3) 4 [(5 : ℝ)] [false] 1 0
      (by decide) (by decide)).2.2 (by decide)⟩

/-- Claim C2: for every pair with count `c`, endpoint marginals `ma`, `mb`
and global event total `N`, `compute_mi_resident` stores
`MI = log2(c*N/(ma*mb))`, and stores 0 whenever `c`, `ma`, `mb` or `N` is
not strictly positive; in particular for counts {(0,1):10, (0,2):5,
(1,3):20}, marginals [30,40,20,50] and N = 100, the stored MI of every
pair equals `log2(c*N/(ma*mb))` exactly (hence within 1e-3) and agrees
with the harness oracle `cpu_mi`. -/
theorem mi_resident_formula :
    (∀ (wa wb : List Nat) (cnt : List ℚ) (marg : Nat → ℚ) (n : ℚ) (mi : List ℝ)
        (np i : Nat), i < np → i < mi.length →
        ((cnt.getD i 0 ≤ 0 ∨ marg (wa.getD i 0) ≤ 0 ∨ marg (wb.getD i 0) ≤ 0 ∨ n ≤ 0 →
            (compute_mi_resident wa wb cnt marg n mi np).getD i 0 = 0) ∧
          (0 < cnt.getD i 0 → 0 < marg (wa.getD i 0) → 0 < marg (wb.getD i 0) → 0 < n →
            (compute_mi_resident wa wb cnt marg n mi np).getD i 0 =
              Real.logb 2
                ((cnt.getD i 0 * n / (marg (wa.getD i 0) * marg (wb.getD i 0)) : ℚ) : ℝ)))) ∧
      ((compute_mi_resident [0, 0, 1] [1, 2, 3] [10, 5, 20]
            (fun w => ([30, 40, 20, 50] : List ℚ).getD w 0) 100 [0, 0, 0] 3).getD 0 0 =
          Real.logb 2 (10 * 100 / (30 * 40) : ℝ) ∧
        (compute_mi_resident [0, 0, 1] [1, 2, 3] [10, 5, 20]
            (fun w => ([30, 40, 20, 50] : List ℚ).getD w 0) 100 [0, 0, 0] 3).getD 1 0 =
          Real.logb 2 (5 * 100 / (30 * 20) : ℝ) ∧
        (compute_mi_resident [0, 0, 1] [1, 2, 3] [10, 5, 20]
            (fun w => ([30, 40, 20, 50] : List ℚ).getD w 0) 100 [0, 0, 0] 3).getD 2 0 =
          Real.logb 2 (20 * 100 / (40 * 50) : ℝ)) ∧
      (|(compute_mi_resident [0, 0, 1] [1, 2, 3] [10, 5, 20]
            (fun w => ([30, 40, 20, 50] : List ℚ).getD w 0) 100 [0, 0, 0] 3).getD 0 0 -
          Real.logb 2 (10 * 100 / (30 * 40) : ℝ)| < 1 / 1000 ∧
        |(compute_mi_resident [0, 0, 1] [1, 2, 3] [10, 5, 20]
            (fun w => ([30, 40, 20, 50] : List ℚ).getD w 0) 100 [0, 0, 0] 3).getD 1 0 -
          Real.logb 2 (5 * 100 / (30 * 20) : ℝ)| < 1 / 1000 ∧
        |(compute_mi_resident [0, 0, 1] [1, 2, 3] [10, 5, 20]
            (fun w => ([30, 40, 20, 50] : List ℚ).getD w 0) 100 [0, 0, 0] 3).getD 2 0 -
          Real.logb 2 (20 * 100 / (40 * 50) : ℝ)| < 1 / 1000) ∧
      (cpu_mi 10 30 40 100 =
          (compute_mi_resident [0, 0, 1] [1, 2, 3] [10, 5, 20]
            (fun w => ([30, 40, 20, 50] : List ℚ).getD w 0) 100 [0, 0, 0] 3).getD 0 0 ∧
        cpu_mi 5 30 20 100 =
          (compute_mi_resident [0, 0, 1] [1, 2, 3] [10, 5, 20]
            (fun w => ([30, 40, 20, 50] : List ℚ).getD w 0) 100 [0, 0, 0] 3).getD 1 0 ∧
        cpu_mi 20 40 50 100 =
          (compute_mi_resident [0, 0, 1] [1, 2, 3] [10, 5, 20]
            (fun w => ([30, 40, 20, 50] : List ℚ).getD w 0) 100 [0, 0, 0] 3).getD 2 0) := by
  have hgen : ∀ (wa wb : List Nat) (cnt : List ℚ) (marg : Nat → ℚ) (n : ℚ) (mi : List ℝ)
      (np i : Nat), i < np → i < mi.length →
      ((cnt.getD i 0 ≤ 0 ∨ marg (wa.getD i 0) ≤ 0 ∨ marg (wb.getD i 0) ≤ 0 ∨ n ≤ 0 →
          (compute_mi_resident wa wb cnt marg n mi np).getD i 0 = 0) ∧
        (0 < cnt.getD i 0 → 0 < marg (wa.getD i 0) → 0 < marg (wb.getD i 0) → 0 < n →
          (compute_mi_resident wa wb cnt marg n mi np).getD i 0 =
            Real.logb 2
              ((cnt.getD i 0 * n / (marg (wa.getD i 0) * marg (wb.getD i 0)) : ℚ) : ℝ))) := by
    intro wa wb cnt marg n mi np i hnp him
    have hout : (compute_mi_resident wa wb cnt marg n mi np).getD i 0 =
        mi_formula (cnt.getD i 0) (marg (wa.getD i 0)) (marg (wb.getD i 0)) n := by
      rw [show compute_mi_resident wa wb cnt marg n mi np =
          mi.mapIdx (fun i v => if i < np then
            mi_formula (cnt.getD i 0) (marg (wa.getD i 0)) (marg (wb.getD i 0)) n else v)
          from rfl]
      rw [getD_mapIdx mi _ i 0 0 him, if_pos hnp]
    constructor
    · intro hguard
      rw [hout]
      simp only [mi_formula]
      rw [if_pos hguard]
    · intro h1 h2 h3 h4
      rw [hout]
      simp only [mi_formula]
      rw [if_neg (by push_neg; exact ⟨h1, h2, h3, h4⟩)]
  have h0 := (hgen [0, 0, 1] [1, 2, 3] [10, 5, 20]
    (fun w => ([30, 40, 20, 50] : List ℚ).getD w 0) 100 [0, 0, 0] 3 0
    (by decide) (by decide)).2 (by decide) (by decide) (by decide) (by decide)
  have h1 := (hgen [0, 0, 1] [1, 2, 3] [10, 5, 20]
    (fun w => ([30, 40, 20, 50] : List ℚ).getD w 0) 100 [0, 0, 0] 3 1
    (by decide) (by decide)).2 (by decide) (by decide) (by decide) (by decide)
  have h2 := (hgen [0, 0, 1] [1, 2, 3] [10, 5, 20]
    (fun w => ([30, 40, 20, 50] : List ℚ).getD w 0) 100 [0, 0, 0] 3 2
    (by decide) (by decide)).2 (by decide) (by decide) (by decide) (by decide)
  have e0 : (compute_mi_resident [0, 0, 1] [1, 2, 3] [10, 5, 20]
      (fun w => ([30, 40, 20, 50] : List ℚ).getD w 0) 100 [0, 0, 0] 3).getD 0 0 =
      Real.logb 2 (10 * 100 / (30 * 40) : ℝ) := by
    rw [h0]; norm_num
  have e1 : (compute_mi_resident [0, 0, 1] [1, 2, 3] [10, 5, 20]
      (fun w => ([30, 40, 20, 50] : List ℚ).getD w 0) 100 [0, 0, 0] 3).getD 1 0 =
      Real.logb 2 (5 * 100 / (30 * 20) : ℝ) := by
    rw [h1]; norm_num
  have e2 : (compute_mi_resident [0, 0, 1] [1, 2, 3] [10, 5, 20]
      (fun w => ([30, 40, 20, 50] : List ℚ).getD w 0) 100 [0, 0, 0] 3).getD 2 0 =
      Real.logb 2 (20 * 100 / (40 * 50) : ℝ) := by
    rw [h2]; norm_num
  refine ⟨hgen, ⟨e0, e1, e2⟩, ⟨?_, ?_, ?_⟩, ?_, ?_, ?_⟩
  · rw [e0]; simp
  · rw [e1]; simp
  · rw [e2]; simp
  · rw [e0]
    simp only [cpu_mi]
    rw [if_neg (by push_neg; refine ⟨by norm_num, by norm_num, by norm_num, by norm_num⟩)]
    norm_num
  · rw [e1]
    simp only [cpu_mi]
    rw [if_neg (by push_neg; refine ⟨by norm_num, by norm_num, by norm_num, by norm_num⟩)]
    norm_num
  · rw [e2]
    simp only [cpu_mi]
    rw [if_neg (by push_neg; refine ⟨by norm_num, by norm_num, by norm_num, by norm_num⟩)]
    norm_num

theorem mi_resident_formula_witness :
    (compute_mi_resident [0] [1] [2] (fun _ => 3) 4 [(0 : ℝ)] 1).getD 0 0 =
      Real.logb 2 ((2 * 4 / (3 * 3) : ℚ) : ℝ) :=
  (mi_resident_formula.1 [0] [1] [2] (fun _ => 3) 4 [(0 : ℝ)] 1 0
    (by decide) (by decide)).2 (by decide) (by decide) (by decide) (by decide)

/-- Well-formedness of a batch's sentence boundary arrays (§7b: malformed
batches are rejected before dispatch): the offsets tile the flat word
array contiguously starting at `start`. -/
def tilesFrom : Nat → List Nat → List Nat → Bool
  | _, [], [] => true
  | start, o :: os, l :: ls => o == start && tilesFrom (start + l) os ls
  | _, _, _ => false

theorem tilesFrom_length : ∀ (start : Nat) (off len : List Nat),
    tilesFrom start off len = true → off.length = len.length := by
  intro start off
  induction off generalizing start with
  | nil => intro len h; cases len with
    | nil => rfl
    | cons l ls => simp [tilesFrom] at h
  | cons o os ih =>
      intro len h
      cases len with
      | nil => simp [tilesFrom] at h
      | cons l ls =>
          simp only [tilesFrom, Bool.and_eq_true] at h
          simp [ih (start + l) ls h.2]

theorem tilesFrom_getD : ∀ (start : Nat) (off len : List Nat),
    tilesFrom start off len = true →
    ∀ t, t < off.length → off.getD t 0 = start + (len.take t).sum := by
  intro start off
  induction off generalizing start with
  | nil => intro len _ t ht; simp at ht
  | cons o os ih =>
      intro len h t ht
      cases len with
      | nil => simp [tilesFrom] at h
      | cons l ls =>
          simp only [tilesFrom, Bool.and_eq_true, beq_iff_eq] at h
          cases t with
          | zero => simp [h.1]
          | succ t =>
              have := ih (start + l) ls h.2 t (by simpa using ht)
              simp only [List.getD_cons_succ, List.take_succ_cons, List.sum_cons]
              omega

theorem take_sum_mono (len : List Nat) (t u : Nat) (h : t ≤ u) :
    (len.take t).sum ≤ (len.take u).sum := by
  have h1 : len.take t = (len.take u).take t := by
    rw [List.take_take, Nat.min_eq_left h]
  rw [h1]
  exact List.Sublist.sum_le_sum (List.take_sublist t (len.take u)) (fun _ _ => Nat.zero_le _)

theorem tilesFrom_mono (start : Nat) (off len : List Nat)
    (h : tilesFrom start off len = true) (t u : Nat) (htu : t ≤ u) (hu : u < off.length) :
    off.getD t 0 ≤ off.getD u 0 := by
  rw [tilesFrom_getD start off len h t (lt_of_le_of_lt htu hu),
    tilesFrom_getD start off len h u hu]
  exact Nat.add_le_add_left (take_sum_mono len t u htu) start

theorem findSentLin_none : ∀ (start : Nat) (off len : List Nat) (i : Nat),
    tilesFrom start off len = true → (i < start ∨ start + len.sum ≤ i) →
    findSentLin off len i = none := by
  intro start off
  induction off generalizing start with
  | nil => intro len i h _; cases len with
    | nil => rfl
    | cons l ls => simp [tilesFrom] at h
  | cons o os ih =>
      intro len i h hrange
      cases len with
      | nil => simp [tilesFrom] at h
      | cons l ls =>
          simp only [tilesFrom, Bool.and_eq_true, beq_iff_eq] at h
          obtain ⟨rfl, h2⟩ := h
          simp only [List.sum_cons] at hrange
          rw [findSentLin, if_neg (by omega),
            ih (o + l) ls i h2 (by omega)]
          rfl

theorem findSentLin_found : ∀ (start : Nat) (off len : List Nat) (i : Nat),
    tilesFrom start off len = true → start ≤ i → i < start + len.sum →
    ∃ s, s < off.length ∧ findSentLin off len i = some s ∧
      off.getD s 0 ≤ i ∧ i < off.getD s 0 + len.getD s 0 ∧
      ∀ t, s < t → t < off.length → i < off.getD t 0 := by
  intro start off
  induction off generalizing start with
  | nil =>
      intro len i h hlo hi
      cases len with
      | nil => simp at hi; omega
      | cons l ls => simp [tilesFrom] at h
  | cons o os ih =>
      intro len i h hlo hhi
      cases len with
      | nil => simp [tilesFrom] at h
      | cons l ls =>
          simp only [tilesFrom, Bool.and_eq_true, beq_iff_eq] at h
          obtain ⟨rfl, h2⟩ := h
          simp only [List.sum_cons] at hhi
          by_cases hc : i < o + l
          · refine ⟨0, by simp, ?_, by simpa using hlo, by simpa using hc, ?_⟩
            · rw [findSentLin, if_pos ⟨hlo, hc⟩]
            · intro t h0t htlen
              cases t with
              | zero => omega
              | succ t =>
                  have hlb : o + l ≤ (o :: os).getD (t + 1) 0 := by
                    rw [tilesFrom_getD o (o :: os) (l :: ls)
                      (by simp [tilesFrom, h2]) (t + 1) htlen]
                    simp only [List.take_succ_cons, List.sum_cons]
                    omega
                  omega
          · obtain ⟨s, hs1, hs2, hs3, hs4, hs5⟩ :=
              ih (o + l) ls i h2 (by omega) (by omega)
            refine ⟨s + 1, by simpa using hs1, ?_, by simpa using hs3,
              by simpa using hs4, ?_⟩
            · rw [findSentLin, if_neg (by omega), hs2]; rfl
            · intro t hst htlen
              cases t with
              | zero => omega
              | succ t => exact hs5 t (by omega) (by simpa using htlen)

theorem bsearch_spec (off : List Nat) (i : Nat)
    (hmono : ∀ t u, t ≤ u → u < off.length → off.getD t 0 ≤ off.getD u 0) :
    ∀ (fuel lo hi : Nat), off.getD lo 0 ≤ i → lo ≤ hi → hi < off.length →
      hi - lo ≤ fuel →
      lo ≤ bsearch off i fuel lo hi ∧ bsearch off i fuel lo hi ≤ hi ∧
        off.getD (bsearch off i fuel lo hi) 0 ≤ i ∧
        ∀ t, bsearch off i fuel lo hi < t → t ≤ hi → i < off.getD t 0 := by
  intro fuel
  induction fuel with
  | zero =>
      intro lo hi hlo hlohi _ hfuel
      have : lo = hi := by omega
      subst this
      exact ⟨le_refl _, le_refl _, by simpa [bsearch] using hlo, by
        intro t ht1 ht2; simp [bsearch] at ht1; omega⟩
  | succ fuel ih =>
      intro lo hi hlo hlohi hhilen hfuel
      by_cases hlt : lo < hi
      · rw [show bsearch off i (fuel + 1) lo hi =
            (if off.getD ((lo + hi + 1) / 2) 0 ≤ i then
              bsearch off i fuel ((lo + hi + 1) / 2) hi
            else bsearch off i fuel lo ((lo + hi + 1) / 2 - 1)) from by
          rw [bsearch]; rw [if_pos hlt]]
        by_cases hmid : off.getD ((lo + hi + 1) / 2) 0 ≤ i
        · rw [if_pos hmid]
          obtain ⟨g1, g2, g3, g4⟩ := ih ((lo + hi + 1) / 2) hi hmid
            (by omega) hhilen (by omega)
          exact ⟨by omega, g2, g3, g4⟩
        · rw [if_neg hmid]
          obtain ⟨g1, g2, g3, g4⟩ := ih lo ((lo + hi + 1) / 2 - 1) hlo
            (by omega) (by omega) (by omega)
          refine ⟨g1, by omega, g3, ?_⟩
          intro t ht1 ht2
          by_cases htm : t ≤ (lo + hi + 1) / 2 - 1
          · exact g4 t ht1 htm
          · have : off.getD ((lo + hi + 1) / 2) 0 ≤ off.getD t 0 :=
              hmono _ _ (by omega) (by omega)
            omega
      · have heq : lo = hi := by omega
        subst heq
        have hr : bsearch off i (fuel + 1) lo lo = lo := by
          rw [bsearch, if_neg hlt]
        rw [hr]
        exact ⟨le_refl _, le_refl _, hlo, fun t ht1 ht2 => by omega⟩

theorem findSent_lin_eq_bin (off len : List Nat) (i : Nat)
    (ht : tilesFrom 0 off len = true) :
    findSentLin off len i = findSentBin off len i := by
  cases hoff : off with
  | nil =>
      subst hoff
      cases len with
      | nil => rfl
      | cons l ls => simp [tilesFrom] at ht
  | cons o os =>
      rw [← hoff]
      have hne : off.length ≠ 0 := by rw [hoff]; simp
      have hlen := tilesFrom_length 0 off len ht
      have hmono := tilesFrom_mono 0 off len ht
      have h00 : off.getD 0 0 = 0 := by
        have := tilesFrom_getD 0 off len ht 0 (by omega)
        simpa using this
      obtain ⟨g1, g2, g3, g4⟩ := bsearch_spec off i hmono off.length 0 (off.length - 1)
        (by rw [h00]; exact Nat.zero_le i) (by omega) (by omega) (by omega)
      by_cases hrange : i < len.sum
      · obtain ⟨s, hs1, hs2, hs3, hs4, hs5⟩ :=
          findSentLin_found 0 off len i ht (Nat.zero_le i) (by omega)
        have heq : bsearch off i off.length 0 (off.length - 1) = s := by
          rcases Nat.lt_trichotomy (bsearch off i off.length 0 (off.length - 1)) s
            with hcase | hcase | hcase
          · have := g4 s hcase (by omega)
            omega
          · exact hcase
          · have := hs5 (bsearch off i off.length 0 (off.length - 1)) hcase (by omega)
            omega
        rw [hs2, findSentBin, if_neg hne, heq, if_pos ⟨hs3, hs4⟩]
      · rw [findSentLin_none 0 off len i ht (by omega)]
        rw [findSentBin, if_neg hne]
        have hout : ¬ (off.getD (bsearch off i off.length 0 (off.length - 1)) 0 ≤ i ∧
            i < off.getD (bsearch off i off.length 0 (off.length - 1)) 0 +
              len.getD (bsearch off i off.length 0 (off.length - 1)) 0) := by
          rintro ⟨-, hin⟩
          set r := bsearch off i off.length 0 (off.length - 1) with hr
          have hrl : r < off.length := by omega
          have hval := tilesFrom_getD 0 off len ht r hrl
          have hrlen : r < len.length := by omega
          have hsum : (len.take r).sum + len.getD r 0 ≤ len.sum := by
            have h1 : (len.take (r + 1)).sum ≤ len.sum := by
              have := take_sum_mono len (r + 1) len.length (by omega)
              rwa [List.take_length] at this
            have h2 : (len.take (r + 1)).sum = (len.take r).sum + len.getD r 0 := by
              rw [List.take_succ, List.sum_append, List.getElem?_eq_getElem hrlen]
              simp [List.getD_eq_getElem?_getD, List.getElem?_eq_getElem hrlen]
            omega
          omega
        rw [if_neg hout]

theorem foldl_congr_fun {α σ : Type} (f g : σ → α → σ) (h : ∀ s a, f s a = g s a) :
    ∀ (l : List α) (s : σ), l.foldl f s = l.foldl g s := by
  intro l
  induction l with
  | nil => intro s; rfl
  | cons a l ih => intro s; rw [List.foldl_cons, List.foldl_cons, h, ih]

/-- Claim C5: on every well-formed batch (sentence offsets tiling the flat
word array) the linear-scan kernel `count_sentence_pairs` and the
binary-search kernel `count_sentence_pairs_large` produce identical
results from any common starting state: the same pair pool (hence the same
number of allocated pairs), the same event counter, and the same
marginals. -/
theorem counting_linear_binary_equal (words off len : List Nat) (w : Nat) (s : CountSt)
    (ht : tilesFrom 0 off len = true) :
    count_sentence_pairs words off len w s = count_sentence_pairs_large words off len w s := by
  unfold count_sentence_pairs count_sentence_pairs_large
  refine foldl_congr_fun _ _ (fun st i => ?_) _ s
  unfold processPos
  rw [findSent_lin_eq_bin off len i ht]

theorem counting_linear_binary_equal_witness :
    tilesFrom 0 [0, 4] [4, 3] = true ∧
      count_sentence_pairs [0, 1, 2, 3, 4, 5, 6] [0, 4] [4, 3] 2 .init =
        count_sentence_pairs_large [0, 1, 2, 3, 4, 5, 6] [0, 4] [4, 3] 2 .init :=
  ⟨by decide,
   counting_linear_binary_equal [0, 1, 2, 3, 4, 5, 6] [0, 4] [4, 3] 2 .init (by decide)⟩

instance : IsTotal (Nat × Nat) connRel := ⟨fun _ _ => Nat.le_total _ _⟩

instance : IsTrans (Nat × Nat) connRel := ⟨fun _ _ _ => Nat.le_trans⟩

/-- Claim C3, counterexample: the disjunct hash of the source reference
`cpu_hash_disjunct` (FNV-1a over the connector sequence) is not
order-independent — swapping the two connectors (10, LEFT) and (30, RIGHT)
changes the hash, so the mixing function is not a
commutative/associative accumulator. -/
theorem hash_disjunct_order_dependent :
    [((10 : Nat), (0 : Nat)), (30, 1)].Perm [(30, 1), (10, 0)] ∧
      cpu_hash_disjunct [(10, 0), (30, 1)] ≠ cpu_hash_disjunct [(30, 1), (10, 0)] :=
  ⟨by decide, by decide⟩

theorem sorted_perm_eq_of_key : ∀ (l l' : List (Nat × Nat)), l.Perm l' →
    l.Sorted connRel → l'.Sorted connRel →
    (∀ a ∈ l, ∀ b ∈ l, encodeConnector a = encodeConnector b → a = b) → l = l' := by
  intro l
  induction l with
  | nil =>
      intro l' hp _ _ _
      exact hp.nil_eq
  | cons a t ih =>
      intro l' hp hs hs' hinj
      cases l' with
      | nil => exact absurd hp.symm (by simp)
      | cons b t' =>
          have hab : a = b := by
            have hal' : a ∈ b :: t' := hp.mem_iff.mp (by simp)
            rcases List.mem_cons.mp hal' with h1 | h1
            · exact h1
            · have hba : connRel b a := (List.sorted_cons.mp hs').1 a h1
              have hbl : b ∈ a :: t := hp.symm.mem_iff.mp (by simp)
              rcases List.mem_cons.mp hbl with h2 | h2
              · exact h2.symm
              · have hab2 : connRel a b := (List.sorted_cons.mp hs).1 b h2
                exact hinj a (by simp) b (by simp [h2]) (Nat.le_antisymm hab2 hba)
          subst hab
          rw [ih t' hp.cons_inv (List.sorted_cons.mp hs).2 (List.sorted_cons.mp hs').2
            (fun x hx y hy hxy => hinj x (by simp [hx]) y (by simp [hy]) hxy)]

theorem canonConns_perm (l l' : List (Nat × Nat)) (hd : ∀ c ∈ l, c.2 < 2)
    (hp : l.Perm l') : canonConns l = canonConns l' := by
  apply sorted_perm_eq_of_key
  · exact (List.perm_insertionSort connRel l).trans
      (hp.trans (List.perm_insertionSort connRel l').symm)
  · exact List.sorted_insertionSort connRel l
  · exact List.sorted_insertionSort connRel l'
  · intro a ha b hb hab
    have ha' : a ∈ l := (List.perm_insertionSort connRel l).mem_iff.mp ha
    have hb' : b ∈ l := (List.perm_insertionSort connRel l).mem_iff.mp hb
    have h2a := hd a ha'
    have h2b := hd b hb'
    obtain ⟨wa, da⟩ := a
    obtain ⟨wb, db⟩ := b
    simp only [encodeConnector] at hab h2a h2b
    simp only [Prod.ext_iff]
    omega

theorem connectorsOf_dir_lt (edges : List (Nat × Nat)) (words : List Nat)
    (soff plocal : Nat) : ∀ c ∈ connectorsOf edges words soff plocal, c.2 < 2 := by
  intro c hc
  simp only [connectorsOf, List.mem_filterMap] at hc
  obtain ⟨e, _, hfe⟩ := hc
  split at hfe
  · cases hfe; norm_num
  · split at hfe
    · cases hfe; norm_num
    · cases hfe

/-- Claim C3, amended: order-independence of Section identities is
achieved not by a commutative accumulator but by sorting the connector
multiset into its canonical (encoding) order before the FNV-1a hash: any
two permutations of the same connector list (direction bits) hash
identically after canonical sorting, and consequently
`extract_sections` over a sentence's MST edges yields an identical
Section pool under any reordering of those edges. -/
theorem disjunct_hash_canonical_invariance :
    (∀ (l l' : List (Nat × Nat)), (∀ c ∈ l, c.2 < 2) → l.Perm l' →
        cpu_hash_disjunct (canonConns l) = cpu_hash_disjunct (canonConns l')) ∧
      ∀ (words : List Nat) (edges edges' : List (Nat × Nat)) (pool : List SecRec),
        edges.Perm edges' →
        extract_sections words [0] [words.length] edges [0] [edges.length] pool =
          extract_sections words [0] [words.length] edges' [0] [edges'.length] pool := by
  have hhash : ∀ (l l' : List (Nat × Nat)), (∀ c ∈ l, c.2 < 2) → l.Perm l' →
      cpu_hash_disjunct (canonConns l) = cpu_hash_disjunct (canonConns l') :=
    fun l l' hd hp => by rw [canonConns_perm l l' hd hp]
  refine ⟨hhash, ?_⟩
  intro words edges edges' pool hp
  unfold extract_sections
  refine foldl_congr_fun _ _ (fun pool i => ?_) _ pool
  rcases hfind : findSentLin [0] [words.length] i with _ | s <;>
    simp only [extractPos, hfind]
  case _ =>
      have hslice : ((edges.drop (([0] : List Nat).getD s 0)).take
            (([edges.length] : List Nat).getD s 0)).Perm
          ((edges'.drop (([0] : List Nat).getD s 0)).take
            (([edges'.length] : List Nat).getD s 0)) := by
        cases s with
        | zero =>
            simp only [List.getD_cons_zero, List.drop_zero, List.take_length]
            exact hp
        | succ s => simp [List.getD]
      have hconns : (connectorsOf ((edges.drop (([0] : List Nat).getD s 0)).take
            (([edges.length] : List Nat).getD s 0)) words (([0] : List Nat).getD s 0)
            (i - ([0] : List Nat).getD s 0)).Perm
          (connectorsOf ((edges'.drop (([0] : List Nat).getD s 0)).take
            (([edges'.length] : List Nat).getD s 0)) words (([0] : List Nat).getD s 0)
            (i - ([0] : List Nat).getD s 0)) := hslice.filterMap _
      by_cases hnil : connectorsOf ((edges.drop (([0] : List Nat).getD s 0)).take
          (([edges.length] : List Nat).getD s 0)) words (([0] : List Nat).getD s 0)
          (i - ([0] : List Nat).getD s 0) = []
      · have hnil2 := (hnil ▸ hconns).nil_eq
        rw [if_pos hnil, if_pos hnil2.symm]
      · have hnil2 : ¬ connectorsOf ((edges'.drop (([0] : List Nat).getD s 0)).take
            (([edges'.length] : List Nat).getD s 0)) words (([0] : List Nat).getD s 0)
            (i - ([0] : List Nat).getD s 0) = [] := by
          intro h
          exact hnil (h ▸ hconns.symm).nil_eq.symm
        rw [if_neg hnil, if_neg hnil2,
          hhash _ _ (connectorsOf_dir_lt _ _ _ _) hconns]

theorem disjunct_hash_canonical_invariance_witness :
    cpu_hash_disjunct (canonConns [(10, 0), (30, 1)]) =
        cpu_hash_disjunct (canonConns [(30, 1), (10, 0)]) ∧
      extract_sections [10, 20, 30] [0] [3] [(0, 1), (1, 2)] [0] [2] [] =
        extract_sections [10, 20, 30] [0] [3] [(1, 2), (0, 1)] [0] [2] [] :=
  ⟨disjunct_hash_canonical_invariance.1 [(10, 0), (30, 1)] [(30, 1), (10, 0)]
      (by decide) (by decide),
   disjunct_hash_canonical_invariance.2 [10, 20, 30] [(0, 1), (1, 2)] [(1, 2), (0, 1)] []
      (by decide)⟩

/-- Number of Candidate records carrying canonical key `k`. -/
def countKey (cands : List CandRec) (k : Nat × Nat) : Nat :=
  cands.countP (fun c => decide ((c.a, c.b) = k))

/-- Whether a Candidate record with key `k` is realized. -/
def hasKey : List CandRec → (Nat × Nat) → Bool
  | [], _ => false
  | c :: cs, k => decide ((c.a, c.b) = k) || hasKey cs k

/-- The dot accumulator the index lookup reads for key `k` (0 when no
candidate with that key is realized). -/
def dotOf : List CandRec → (Nat × Nat) → ℚ
  | [], _ => 0
  | c :: cs, k => if (c.a, c.b) = k then c.dot else dotOf cs k

theorem addDot_head (c : CandRec) (cs : List CandRec) (k : Nat × Nat) (v : ℚ)
    (h : (c.a, c.b) = k) :
    addDot (c :: cs) k v = { c with dot := c.dot + v } :: cs := by
  have h1 : c.a = k.1 ∧ c.b = k.2 := by
    rw [← h]; exact ⟨rfl, rfl⟩
  simp only [addDot, candIdx, if_pos h1]
  rfl

theorem addDot_cons (c : CandRec) (cs : List CandRec) (k : Nat × Nat) (v : ℚ)
    (h : (c.a, c.b) ≠ k) :
    addDot (c :: cs) k v = c :: addDot cs k v := by
  have h1 : ¬ (c.a = k.1 ∧ c.b = k.2) := by
    rintro ⟨ha, hb⟩
    exact h (by rw [ha, hb])
  simp only [addDot, candIdx, if_neg h1]
  cases hidx : candIdx cs k.1 k.2 with
  | none => simp
  | some i => simp [modifyCandAt]

theorem addDot_nil (k : Nat × Nat) (v : ℚ) : addDot [] k v = [⟨k.1, k.2, v⟩] := rfl

theorem dotOf_addDot (cs : List CandRec) (k0 k : Nat × Nat) (v : ℚ) :
    dotOf (addDot cs k0 v) k = dotOf cs k + if k0 = k then v else 0 := by
  induction cs with
  | nil =>
      rw [addDot_nil]
      by_cases h : k0 = k <;> simp [dotOf, h]
  | cons c cs ih =>
      by_cases hc : (c.a, c.b) = k0
      · rw [addDot_head c cs k0 v hc]
        have he : (({ c with dot := c.dot + v } : CandRec).a,
            ({ c with dot := c.dot + v } : CandRec).b) = (c.a, c.b) := rfl
        rw [dotOf, dotOf, he]
        by_cases hk : (c.a, c.b) = k
        · have hkk : k0 = k := by rw [← hc, hk]
          simp only [if_pos hk, if_pos hkk]
        · have hkk : k0 ≠ k := by rw [← hc]; exact hk
          simp only [if_neg hk, if_neg hkk]
          ring
      · rw [addDot_cons c cs k0 v hc, dotOf, dotOf]
        by_cases hk : (c.a, c.b) = k
        · have hkk : k0 ≠ k := by rw [← hk]; intro h; exact hc h.symm
          simp only [if_pos hk, if_neg hkk]
          ring
        · simp only [if_neg hk, ih]

theorem hasKey_addDot (cs : List CandRec) (k0 k : Nat × Nat) (v : ℚ) :
    hasKey (addDot cs k0 v) k = (hasKey cs k || decide (k0 = k)) := by
  induction cs with
  | nil =>
      rw [addDot_nil]
      by_cases h : k0 = k <;> simp [hasKey, h]
  | cons c cs ih =>
      by_cases hc : (c.a, c.b) = k0
      · rw [addDot_head c cs k0 v hc]
        have he : (({ c with dot := c.dot + v } : CandRec).a,
            ({ c with dot := c.dot + v } : CandRec).b) = (c.a, c.b) := rfl
        rw [hasKey, hasKey, he]
        by_cases hk : (c.a, c.b) = k
        · have hkk : k0 = k := by rw [← hc, hk]
          simp [hk, hkk]
        · have hkk : k0 ≠ k := by rw [← hc]; exact hk
          simp [hk, hkk]
      · rw [addDot_cons c cs k0 v hc, hasKey, hasKey, ih]
        by_cases hk : (c.a, c.b) = k <;> simp [hk]

theorem countKey_cons (c : CandRec) (cs : List CandRec) (k : Nat × Nat) :
    countKey (c :: cs) k = countKey cs k + (if (c.a, c.b) = k then 1 else 0) := by
  simp only [countKey, List.countP_cons]
  by_cases h : (c.a, c.b) = k <;> simp [h]

theorem countKey_addDot (cs : List CandRec) (k0 k : Nat × Nat) (v : ℚ) :
    countKey (addDot cs k0 v) k =
      countKey cs k + (if k0 = k ∧ hasKey cs k0 = false then 1 else 0) := by
  induction cs with
  | nil =>
      rw [addDot_nil, countKey_cons]
      by_cases h : k0 = k <;> simp [countKey, hasKey, h]
  | cons c cs ih =>
      by_cases hc : (c.a, c.b) = k0
      · rw [addDot_head c cs k0 v hc]
        have he : (({ c with dot := c.dot + v } : CandRec).a,
            ({ c with dot := c.dot + v } : CandRec).b) = (c.a, c.b) := rfl
        rw [countKey_cons, countKey_cons, he]
        have hck : hasKey (c :: cs) k0 = true := by simp [hasKey, hc]
        rw [hck]
        simp
      · rw [addDot_cons c cs k0 v hc, countKey_cons, countKey_cons, ih]
        have hck : hasKey (c :: cs) k0 = hasKey cs k0 := by simp [hasKey, hc]
        rw [hck]
        ring

theorem dotOf_foldl (L : List ((Nat × Nat) × ℚ)) :
    ∀ (cs : List CandRec) (k : Nat × Nat),
      dotOf (L.foldl (fun cs kv => addDot cs kv.1 kv.2) cs) k =
        dotOf cs k + ((L.filter fun kv => decide (kv.1 = k)).map fun kv => kv.2).sum := by
  induction L with
  | nil => intro cs k; simp
  | cons kv L ih =>
      intro cs k
      rw [List.foldl_cons, ih, dotOf_addDot]
      by_cases h : kv.1 = k
      · simp [List.filter_cons, h]
        ring
      · simp [List.filter_cons, h]

theorem countKey_foldl (L : List ((Nat × Nat) × ℚ)) :
    ∀ (cs : List CandRec) (k : Nat × Nat),
      countKey (L.foldl (fun cs kv => addDot cs kv.1 kv.2) cs) k =
        countKey cs k +
          (if (k ∈ L.map fun kv => kv.1) ∧ hasKey cs k = false then 1 else 0) := by
  induction L with
  | nil => intro cs k; simp
  | cons kv L ih =>
      intro cs k
      rw [List.foldl_cons, ih, countKey_addDot, hasKey_addDot]
      by_cases h1 : kv.1 = k <;> by_cases h2 : hasKey cs k = false <;>
        by_cases h3 : k ∈ L.map fun kv => kv.1 <;>
        simp [h1, h2, h3] <;> exact fun h => h1 h.symm

/-- The per-key read of one optional contribution: its value when its key
is `k`, else 0. -/
def keyVal (k : Nat × Nat) : Option ((Nat × Nat) × ℚ) → ℚ
  | none => 0
  | some kv => if kv.1 = k then kv.2 else 0

theorem keyVal_ite (k k0 : Nat × Nat) (c : Prop) [inst : Decidable c] (v : ℚ) :
    keyVal k (if c then some (k0, v) else none) = if c ∧ k0 = k then v else 0 := by
  by_cases h : c <;> simp [keyVal, h]

theorem sum_filterMap_key {α : Type} (l : List α) (g : α → Option ((Nat × Nat) × ℚ))
    (k : Nat × Nat) :
    ((((l.filterMap g).filter fun kv => decide (kv.1 = k)).map fun kv => kv.2).sum) =
      (l.map fun a => keyVal k (g a)).sum := by
  induction l with
  | nil => rfl
  | cons a t ih =>
      rw [List.map_cons, List.sum_cons]
      cases hg : g a with
      | none =>
          rw [List.filterMap_cons_none hg, ih]
          simp [keyVal]
      | some kv =>
          rw [List.filterMap_cons_some hg]
          by_cases hk : kv.1 = k
          · rw [List.filter_cons_of_pos (by simpa using hk), List.map_cons,
              List.sum_cons, ih]
            simp [keyVal, hk]
          · rw [List.filter_cons_of_neg (by simpa using hk), ih]
            simp [keyVal, hk]

theorem canonPair_eq_canonPair {x y a b : Nat} :
    canonPair x y = canonPair a b ↔ ((x = a ∧ y = b) ∨ (x = b ∧ y = a)) := by
  simp only [canonPair]
  split <;> split <;> simp [Prod.ext_iff] <;> omega

/-- The value of word `w`'s sparse disjunct vector at coordinate `d`: the
summed count of the word's Sections carrying disjunct hash `d`. -/
def secCount (pool : List SecRec) (w d : Nat) : ℚ :=
  ((pool.filter fun r => decide (r.word = w ∧ r.djh = d)).map fun r => r.count).sum

theorem secCount_cons (x : SecRec) (t : List SecRec) (w d : Nat) :
    secCount (x :: t) w d =
      (if x.word = w ∧ x.djh = d then x.count else 0) + secCount t w d := by
  unfold secCount
  by_cases h : x.word = w ∧ x.djh = d
  · rw [List.filter_cons_of_pos (by simpa using h), List.map_cons, List.sum_cons,
      if_pos h]
  · rw [List.filter_cons_of_neg (by simpa using h), if_neg h, zero_add]

theorem sum_map_ite_secCount (ps : List SecRec) (w d : Nat) (c : ℚ) :
    (ps.map fun x => if x.word = w ∧ x.djh = d then x.count * c else 0).sum =
      secCount ps w d * c := by
  induction ps with
  | nil => simp [secCount]
  | cons x t ih =>
      rw [List.map_cons, List.sum_cons, ih, secCount_cons]
      by_cases h : x.word = w ∧ x.djh = d
      · rw [if_pos h, if_pos h]; ring
      · rw [if_neg h, if_neg h]; ring

theorem secCount_append (ps : List SecRec) (r : SecRec) (w d : Nat) :
    secCount (ps ++ [r]) w d =
      secCount ps w d + (if r.word = w ∧ r.djh = d then r.count else 0) := by
  unfold secCount
  rw [List.filter_append, List.map_append, List.sum_append]
  congr 1
  by_cases h : r.word = w ∧ r.djh = d
  · rw [List.filter_cons_of_pos (by simpa using h), if_pos h]
    simp
  · rw [List.filter_cons_of_neg (by simpa using h), if_neg h]
    simp

theorem secCount_eq_zero (ps : List SecRec) (w d : Nat)
    (h : d ∉ (List.map (fun x => x.djh) ps).toFinset) : secCount ps w d = 0 := by
  unfold secCount
  rw [show ps.filter (fun r => decide (r.word = w ∧ r.djh = d)) = [] from by
    rw [List.filter_eq_nil_iff]
    intro x hx hdec
    exact h (by
      simp only [List.mem_toFinset, List.mem_map]
      exact ⟨x, hx, (of_decide_eq_true hdec).2⟩)]
  rfl

/-- The dot product the spec promises in §4.6: the sum, over all disjunct
hashes `d` present in the Section pool, of `count(A,d) * count(B,d)`. -/
def dotSpec (pool : List SecRec) (A B : Nat) : ℚ :=
  ∑ d ∈ (pool.map fun x => x.djh).toFinset, secCount pool A d * secCount pool B d

theorem sum_congr_point {S : Finset Nat} {f g : Nat → ℚ} {a : Nat} {δ : ℚ}
    (ha : a ∈ S) (hpt : ∀ d, d ≠ a → f d = g d) (hda : f a = g a + δ) :
    ∑ d ∈ S, f d = ∑ d ∈ S, g d + δ := by
  rw [← Finset.sum_erase_add S f ha, ← Finset.sum_erase_add S g ha, hda,
    Finset.sum_congr rfl (fun d hd => hpt d (Finset.ne_of_mem_erase hd))]
  ring

theorem sum_insert_point {S : Finset Nat} {f g : Nat → ℚ} {a : Nat} {δ : ℚ}
    (ha : a ∉ S) (hpt : ∀ d, d ≠ a → f d = g d) (hda : f a = g a + δ) (hga : g a = 0) :
    ∑ d ∈ insert a S, f d = ∑ d ∈ S, g d + δ := by
  rw [Finset.sum_insert ha, hda, hga,
    Finset.sum_congr rfl (fun d hd => hpt d (fun hc => ha (hc ▸ hd)))]
  ring

theorem dotSpec_append (ps : List SecRec) (r : SecRec) (A B : Nat) (hAB : A ≠ B) :
    dotSpec (ps ++ [r]) A B = dotSpec ps A B +
      ((if r.word = A then secCount ps B r.djh * r.count else 0) +
        (if r.word = B then secCount ps A r.djh * r.count else 0)) := by
  unfold dotSpec
  have hset : ((ps ++ [r]).map fun x => x.djh).toFinset =
      insert r.djh ((ps.map fun x => x.djh).toFinset) := by
    rw [List.map_append, List.toFinset_append]
    simp [Finset.insert_eq, Finset.union_comm]
  have hpoint : ∀ d, d ≠ r.djh →
      secCount (ps ++ [r]) A d * secCount (ps ++ [r]) B d =
        secCount ps A d * secCount ps B d := by
    intro d hd
    have hA2 : ¬(r.word = A ∧ r.djh = d) := fun hh => hd hh.2.symm
    have hB2 : ¬(r.word = B ∧ r.djh = d) := fun hh => hd hh.2.symm
    rw [secCount_append, secCount_append, if_neg hA2, if_neg hB2]
    ring
  have hxval : secCount (ps ++ [r]) A r.djh * secCount (ps ++ [r]) B r.djh =
      secCount ps A r.djh * secCount ps B r.djh +
        ((if r.word = A then secCount ps B r.djh * r.count else 0) +
          (if r.word = B then secCount ps A r.djh * r.count else 0)) := by
    rw [secCount_append, secCount_append]
    by_cases hA : r.word = A <;> by_cases hB : r.word = B
    · exact absurd (hA.symm.trans hB) hAB
    · have hA2 : r.word = A ∧ r.djh = r.djh := ⟨hA, rfl⟩
      have hB2 : ¬(r.word = B ∧ r.djh = r.djh) := fun hh => hB hh.1
      rw [if_pos hA2, if_neg hB2, if_pos hA, if_neg hB]
      ring
    · have hA2 : ¬(r.word = A ∧ r.djh = r.djh) := fun hh => hA hh.1
      have hB2 : r.word = B ∧ r.djh = r.djh := ⟨hB, rfl⟩
      rw [if_neg hA2, if_pos hB2, if_neg hA, if_pos hB]
      ring
    · have hA2 : ¬(r.word = A ∧ r.djh = r.djh) := fun hh => hA hh.1
      have hB2 : ¬(r.word = B ∧ r.djh = r.djh) := fun hh => hB hh.1
      rw [if_neg hA2, if_neg hB2, if_neg hA, if_neg hB]
      ring
  rw [hset]
  by_cases hmem : r.djh ∈ (List.map (fun x => x.djh) ps).toFinset
  · rw [Finset.insert_eq_self.mpr hmem]
    exact sum_congr_point hmem hpoint hxval
  · have hga : secCount ps A r.djh * secCount ps B r.djh = 0 := by
      rw [secCount_eq_zero ps A r.djh hmem, zero_mul]
    exact sum_insert_point hmem hpoint hxval hga

theorem candContribsAux_append (l : List SecRec) (r : SecRec) :
    ∀ prev, candContribsAux prev (l ++ [r]) =
      candContribsAux prev l ++ pairContribs (prev ++ l) r := by
  induction l with
  | nil => intro prev; simp [candContribsAux]
  | cons x xs ih =>
      intro prev
      simp only [List.cons_append, candContribsAux, List.append_eq, ih,
        List.append_assoc, List.singleton_append, List.nil_append]

theorem candContribs_append (ps : List SecRec) (r : SecRec) :
    candContribs (ps ++ [r]) = candContribs ps ++ pairContribs ps r := by
  unfold candContribs
  rw [candContribsAux_append, List.nil_append]

theorem sum_pairContribs (ps : List SecRec) (r : SecRec) (A B : Nat) (hAB : A ≠ B) :
    ((((pairContribs ps r).filter fun kv => decide (kv.1 = canonPair A B)).map
        fun kv => kv.2).sum) =
      (if r.word = A then secCount ps B r.djh * r.count else 0) +
        (if r.word = B then secCount ps A r.djh * r.count else 0) := by
  unfold pairContribs
  rw [sum_filterMap_key]
  simp only [keyVal_ite]
  by_cases hA : r.word = A
  · have hrB : ¬ r.word = B := fun h => hAB (hA.symm.trans h)
    rw [if_pos hA, if_neg hrB, add_zero, ← sum_map_ite_secCount ps B r.djh r.count]
    refine congrArg List.sum (List.map_congr_left ?_)
    intro x hx
    by_cases h1 : x.word = B ∧ x.djh = r.djh
    · have hbig : (x.djh = r.djh ∧ x.word ≠ r.word) ∧
          canonPair x.word r.word = canonPair A B := by
        refine ⟨⟨h1.2, ?_⟩, ?_⟩
        · rw [h1.1, hA]; exact fun h => hAB h.symm
        · rw [h1.1, hA]; exact canonPair_comm B A
      simp only [if_pos hbig, if_pos h1]
    · have hn : ¬((x.djh = r.djh ∧ x.word ≠ r.word) ∧
          canonPair x.word r.word = canonPair A B) := by
        rintro ⟨⟨hdjh, hne⟩, hcp⟩
        rcases canonPair_eq_canonPair.mp hcp with ⟨hxa, hrb⟩ | ⟨hxb, hra⟩
        · exact hrB hrb
        · exact h1 ⟨hxb, hdjh⟩
      simp only [if_neg hn, if_neg h1]
  · by_cases hB : r.word = B
    · rw [if_neg hA, if_pos hB, zero_add, ← sum_map_ite_secCount ps A r.djh r.count]
      refine congrArg List.sum (List.map_congr_left ?_)
      intro x hx
      by_cases h1 : x.word = A ∧ x.djh = r.djh
      · have hbig : (x.djh = r.djh ∧ x.word ≠ r.word) ∧
            canonPair x.word r.word = canonPair A B := by
          refine ⟨⟨h1.2, ?_⟩, ?_⟩
          · rw [h1.1, hB]; exact hAB
          · rw [h1.1, hB]
        simp only [if_pos hbig, if_pos h1]
      · have hn : ¬((x.djh = r.djh ∧ x.word ≠ r.word) ∧
            canonPair x.word r.word = canonPair A B) := by
          rintro ⟨⟨hdjh, hne⟩, hcp⟩
          rcases canonPair_eq_canonPair.mp hcp with ⟨hxa, hrb⟩ | ⟨hxb, hra⟩
          · exact h1 ⟨hxa, hdjh⟩
          · exact hA hra
        simp only [if_neg hn, if_neg h1]
    · rw [if_neg hA, if_neg hB, add_zero]
      apply List.sum_eq_zero
      intro yv hyv
      rcases List.mem_map.mp hyv with ⟨x, hx, rfl⟩
      have hn : ¬((x.djh = r.djh ∧ x.word ≠ r.word) ∧
          canonPair x.word r.word = canonPair A B) := by
        rintro ⟨⟨hdjh, hne⟩, hcp⟩
        rcases canonPair_eq_canonPair.mp hcp with ⟨hxa, hrb⟩ | ⟨hxb, hra⟩
        · exact hB hrb
        · exact hA hra
      simp only [if_neg hn]

theorem contribSum_eq_dotSpec (A B : Nat) (hAB : A ≠ B) (pool : List SecRec) :
    ((((candContribs pool).filter fun kv => decide (kv.1 = canonPair A B)).map
        fun kv => kv.2).sum) = dotSpec pool A B := by
  induction pool using List.reverseRecOn with
  | nil => simp [candContribs, candContribsAux, dotSpec]
  | append_singleton ps r ih =>
      rw [candContribs_append, List.filter_append, List.map_append, List.sum_append,
        ih, sum_pairContribs ps r A B hAB, dotSpec_append ps r A B hAB]

theorem contrib_key_of_shared (pool : List SecRec) (A B : Nat) (hAB : A ≠ B)
    (h : ∃ x ∈ pool, ∃ y ∈ pool, x.word = A ∧ y.word = B ∧ x.djh = y.djh) :
    canonPair A B ∈ (candContribs pool).map fun kv => kv.1 := by
  induction pool using List.reverseRecOn with
  | nil =>
      obtain ⟨x, hx, -⟩ := h
      exact absurd hx (List.not_mem_nil x)
  | append_singleton ps r ih =>
      obtain ⟨x, hx, y, hy, hxA, hyB, hdjh⟩ := h
      rw [candContribs_append, List.map_append, List.mem_append]
      rcases List.mem_append.mp hx with hx' | hx'
      · rcases List.mem_append.mp hy with hy' | hy'
        · exact Or.inl (ih ⟨x, hx', y, hy', hxA, hyB, hdjh⟩)
        · have hyr : y = r := List.mem_singleton.mp hy'
          refine Or.inr ?_
          rw [List.mem_map]
          refine ⟨(canonPair x.word r.word, x.count * r.count), ?_, ?_⟩
          · unfold pairContribs
            rw [List.mem_filterMap]
            refine ⟨x, hx', ?_⟩
            have hc1 : x.djh = r.djh := by rw [hdjh, hyr]
            have hc2 : x.word ≠ r.word := by rw [hxA, ← hyr, hyB]; exact hAB
            have hcond : x.djh = r.djh ∧ x.word ≠ r.word := ⟨hc1, hc2⟩
            simp only [if_pos hcond]
          · show canonPair x.word r.word = canonPair A B
            rw [hxA, ← hyr, hyB]
      · have hxr : x = r := List.mem_singleton.mp hx'
        rcases List.mem_append.mp hy with hy' | hy'
        · refine Or.inr ?_
          rw [List.mem_map]
          refine ⟨(canonPair y.word r.word, y.count * r.count), ?_, ?_⟩
          · unfold pairContribs
            rw [List.mem_filterMap]
            refine ⟨y, hy', ?_⟩
            have hc1 : y.djh = r.djh := by rw [← hdjh, hxr]
            have hc2 : y.word ≠ r.word := by
              rw [hyB, ← hxr, hxA]; exact fun hh => hAB hh.symm
            have hcond : y.djh = r.djh ∧ y.word ≠ r.word := ⟨hc1, hc2⟩
            simp only [if_pos hcond]
          · show canonPair y.word r.word = canonPair A B
            rw [hyB, ← hxr, hxA]
            exact canonPair_comm B A
        · have hyr : y = r := List.mem_singleton.mp hy'
          exact absurd (show A = B by rw [← hxA, ← hyB, hxr, hyr]) hAB

theorem hasKey_of_countKey_pos (cs : List CandRec) (k : Nat × Nat)
    (h : 0 < countKey cs k) : hasKey cs k = true := by
  induction cs with
  | nil => simp [countKey] at h
  | cons c cs ih =>
      by_cases hc : (c.a, c.b) = k
      · simp [hasKey, hc]
      · rw [countKey_cons, if_neg hc, add_zero] at h
        simp [hasKey, hc, ih h]

theorem dotOf_mem (cs : List CandRec) (k : Nat × Nat) (h : hasKey cs k = true) :
    ∃ (i : Nat) (c : CandRec), cs[i]? = some c ∧ (c.a, c.b) = k ∧
      c.dot = dotOf cs k := by
  induction cs with
  | nil => simp [hasKey] at h
  | cons c cs ih =>
      by_cases hc : (c.a, c.b) = k
      · exact ⟨0, c, by simp, hc, by rw [dotOf, if_pos hc]⟩
      · have h' : hasKey cs k = true := by
          have h2 := h
          simp [hasKey, hc] at h2
          exact h2
        obtain ⟨i, c', hget, hk, hd⟩ := ih h'
        exact ⟨i + 1, c', by rw [List.getElem?_cons_succ]; exact hget, hk,
          by rw [dotOf, if_neg hc]; exact hd⟩

/-- The Section pool of test-cosine.c Test 1: word 0 with sparse vector
{0x100:3, 0x200:4}, word 1 with {0x100:5, 0x300:2}. -/
def cosPool1 : List SecRec := [⟨0, 0x100, 3⟩, ⟨0, 0x200, 4⟩, ⟨1, 0x100, 5⟩, ⟨1, 0x300, 2⟩]

/-- The Section pool of test-cosine.c Test 4: two words with no shared
disjunct. -/
def cosPool2 : List SecRec := [⟨0, 0x10, 1⟩, ⟨1, 0x20, 1⟩]

/-- The Section pool of test-cosine.c Test 3: two words with identical
sparse vectors {0x100:3, 0x200:4}. -/
def cosPool3 : List SecRec := [⟨0, 0x100, 3⟩, ⟨0, 0x200, 4⟩, ⟨1, 0x100, 3⟩, ⟨1, 0x200, 4⟩]

/-- Claim C8: the cosine pipeline realizes, for every pair of distinct
words A and B sharing at least one disjunct, exactly one candidate; the
candidate's dot accumulator equals the sum over all disjuncts d of
count(A,d)*count(B,d), and its entry in the cosine list equals
dot/sqrt(norm2(A)*norm2(B)), or 0 when a norm is zero.  Concretely, for
the sparse vectors {0x100:3, 0x200:4} and {0x100:5, 0x300:2} of
test-cosine.c Test 1 the pipeline yields the single candidate (0,1) with
dot 15 and cosine 15/(5*sqrt 29), which lies within 1e-3 of 0.5571; the
two words of Test 4 share no disjunct and yield zero candidates; and the
identical vectors of Test 3 yield cosine exactly 1. -/
theorem cosine_pipeline_correct :
    (∀ (pool : List SecRec) (A B : Nat), A ≠ B →
      (∃ x ∈ pool, ∃ y ∈ pool, x.word = A ∧ y.word = B ∧ x.djh = y.djh) →
      countKey (accumulate_dot_products pool) (canonPair A B) = 1 ∧
      ∃ (i : Nat) (c : CandRec), (accumulate_dot_products pool)[i]? = some c ∧
        (c.a, c.b) = canonPair A B ∧
        c.dot = dotSpec pool A B ∧
        (compute_cosines (accumulate_dot_products pool)
            (compute_word_norms pool)).getD i 0 =
          (if compute_word_norms pool A = 0 ∨ compute_word_norms pool B = 0
            then (0 : ℝ)
            else ((dotSpec pool A B : ℚ) : ℝ) /
              Real.sqrt ((compute_word_norms pool A *
                compute_word_norms pool B : ℚ) : ℝ))) ∧
    accumulate_dot_products cosPool1 = [⟨0, 1, 15⟩] ∧
    compute_cosines (accumulate_dot_products cosPool1) (compute_word_norms cosPool1) =
      [15 / (5 * Real.sqrt 29)] ∧
    |15 / (5 * Real.sqrt 29) - 0.5571| < (1 / 1000 : ℝ) ∧
    accumulate_dot_products cosPool2 = [] ∧
    compute_cosines (accumulate_dot_products cosPool3) (compute_word_norms cosPool3) =
      [1] := by
  have hacc1 : accumulate_dot_products cosPool1 = [⟨0, 1, 15⟩] := by
    rw [show accumulate_dot_products cosPool1 = [⟨0, 1, 3 * 5⟩] from rfl]
    simp only [List.cons.injEq, CandRec.mk.injEq]
    norm_num
  have hn0 : compute_word_norms cosPool1 0 = 25 := by
    rw [show compute_word_norms cosPool1 0 = 3 * 3 + (4 * 4 + 0) from rfl]
    norm_num
  have hn1 : compute_word_norms cosPool1 1 = 29 := by
    rw [show compute_word_norms cosPool1 1 = 5 * 5 + (2 * 2 + 0) from rfl]
    norm_num
  have hcos1 : compute_cosines (accumulate_dot_products cosPool1)
      (compute_word_norms cosPool1) = [15 / (5 * Real.sqrt 29)] := by
    rw [hacc1]
    rw [show compute_cosines [(⟨0, 1, 15⟩ : CandRec)] (compute_word_norms cosPool1) =
        [if compute_word_norms cosPool1 0 = 0 ∨ compute_word_norms cosPool1 1 = 0
          then (0 : ℝ)
          else ((15 : ℚ) : ℝ) / Real.sqrt ((compute_word_norms cosPool1 0 *
            compute_word_norms cosPool1 1 : ℚ) : ℝ)] from rfl]
    rw [hn0, hn1, if_neg (by norm_num : ¬((25 : ℚ) = 0 ∨ (29 : ℚ) = 0))]
    rw [show ((15 : ℚ) : ℝ) = 15 by norm_num,
      show ((25 * 29 : ℚ) : ℝ) = 25 * 29 by norm_num,
      Real.sqrt_mul (by norm_num : (0 : ℝ) ≤ 25),
      show Real.sqrt 25 = 5 from by
        rw [show (25 : ℝ) = 5 ^ 2 by norm_num]
        exact Real.sqrt_sq (by norm_num)]
  have habs : |15 / (5 * Real.sqrt 29) - 0.5571| < (1 / 1000 : ℝ) := by
    have hsq : Real.sqrt 29 ^ 2 = 29 := Real.sq_sqrt (by norm_num)
    have hpos : 0 < Real.sqrt 29 := Real.sqrt_pos.mpr (by norm_num)
    have hlo : (5.385 : ℝ) < Real.sqrt 29 := by nlinarith [hsq, hpos]
    have hhi : Real.sqrt 29 < 5.3853 := by nlinarith [hsq, hpos]
    have hub : 15 / (5 * Real.sqrt 29) < 0.5572 := by
      rw [div_lt_iff₀ (by positivity)]
      nlinarith [hlo]
    have hlb : (0.5570 : ℝ) < 15 / (5 * Real.sqrt 29) := by
      rw [lt_div_iff₀ (by positivity)]
      nlinarith [hhi, hpos]
    rw [abs_sub_lt_iff]
    constructor <;> linarith
  have hacc3 : accumulate_dot_products cosPool3 = [⟨0, 1, 25⟩] := by
    rw [show accumulate_dot_products cosPool3 = [⟨0, 1, 3 * 3 + 4 * 4⟩] from rfl]
    simp only [List.cons.injEq, CandRec.mk.injEq]
    norm_num
  have hn30 : compute_word_norms cosPool3 0 = 25 := by
    rw [show compute_word_norms cosPool3 0 = 3 * 3 + (4 * 4 + 0) from rfl]
    norm_num
  have hn31 : compute_word_norms cosPool3 1 = 25 := by
    rw [show compute_word_norms cosPool3 1 = 3 * 3 + (4 * 4 + 0) from rfl]
    norm_num
  have hcos3 : compute_cosines (accumulate_dot_products cosPool3)
      (compute_word_norms cosPool3) = [1] := by
    rw [hacc3]
    rw [show compute_cosines [(⟨0, 1, 25⟩ : CandRec)] (compute_word_norms cosPool3) =
        [if compute_word_norms cosPool3 0 = 0 ∨ compute_word_norms cosPool3 1 = 0
          then (0 : ℝ)
          else ((25 : ℚ) : ℝ) / Real.sqrt ((compute_word_norms cosPool3 0 *
            compute_word_norms cosPool3 1 : ℚ) : ℝ)] from rfl]
    rw [hn30, hn31, if_neg (by norm_num : ¬((25 : ℚ) = 0 ∨ (25 : ℚ) = 0))]
    rw [show ((25 : ℚ) : ℝ) = 25 by norm_num,
      show ((25 * 25 : ℚ) : ℝ) = 25 ^ 2 by norm_num,
      Real.sqrt_sq (by norm_num : (0 : ℝ) ≤ 25)]
    norm_num
  refine ⟨?_, hacc1, hcos1, habs, rfl, hcos3⟩
  intro pool A B hAB hsh
  have hkey : canonPair A B ∈ (candContribs pool).map fun kv => kv.1 :=
    contrib_key_of_shared pool A B hAB hsh
  have hcount : countKey (accumulate_dot_products pool) (canonPair A B) = 1 := by
    unfold accumulate_dot_products
    have hc : (canonPair A B ∈ (candContribs pool).map fun kv => kv.1) ∧
        hasKey [] (canonPair A B) = false := ⟨hkey, rfl⟩
    rw [countKey_foldl, if_pos hc]
    simp [countKey]
  have hdot : dotOf (accumulate_dot_products pool) (canonPair A B) =
      dotSpec pool A B := by
    unfold accumulate_dot_products
    rw [dotOf_foldl, contribSum_eq_dotSpec A B hAB pool]
    simp [dotOf]
  have hhk : hasKey (accumulate_dot_products pool) (canonPair A B) = true :=
    hasKey_of_countKey_pos _ _ (by rw [hcount]; exact Nat.one_pos)
  obtain ⟨i, c, hget, hk, hd⟩ := dotOf_mem _ _ hhk
  refine ⟨hcount, i, c, hget, hk, by rw [hd, hdot], ?_⟩
  have hcs : (compute_cosines (accumulate_dot_products pool)
      (compute_word_norms pool)).getD i 0 =
      (if compute_word_norms pool c.a = 0 ∨ compute_word_norms pool c.b = 0
        then (0 : ℝ)
        else ((c.dot : ℚ) : ℝ) /
          Real.sqrt ((compute_word_norms pool c.a *
            compute_word_norms pool c.b : ℚ) : ℝ)) := by
    unfold compute_cosines
    rw [List.getD_eq_getElem?_getD, List.getElem?_map, hget]
    rfl
  rw [hcs, hd, hdot]
  have hab : (c.a = A ∧ c.b = B) ∨ (c.a = B ∧ c.b = A) := by
    have hk' := hk
    unfold canonPair at hk'
    by_cases hle : A ≤ B
    · rw [if_pos hle] at hk'
      exact Or.inl ⟨congrArg Prod.fst hk', congrArg Prod.snd hk'⟩
    · rw [if_neg hle] at hk'
      exact Or.inr ⟨congrArg Prod.fst hk', congrArg Prod.snd hk'⟩
  rcases hab with ⟨h1, h2⟩ | ⟨h1, h2⟩
  · rw [h1, h2]
  · rw [h1, h2, mul_comm (compute_word_norms pool B) (compute_word_norms pool A)]
    exact if_congr or_comm rfl rfl

/-- Witness for C8: the general pipeline theorem applied to the Section
pool of test-cosine.c Test 1 with words 0 and 1, which share disjunct
0x100. -/
theorem cosine_pipeline_correct_witness :
    countKey (accumulate_dot_products cosPool1) (canonPair 0 1) = 1 ∧
    ∃ (i : Nat) (c : CandRec), (accumulate_dot_products cosPool1)[i]? = some c ∧
      (c.a, c.b) = canonPair 0 1 ∧
      c.dot = dotSpec cosPool1 0 1 ∧
      (compute_cosines (accumulate_dot_products cosPool1)
          (compute_word_norms cosPool1)).getD i 0 =
        (if compute_word_norms cosPool1 0 = 0 ∨ compute_word_norms cosPool1 1 = 0
          then (0 : ℝ)
          else ((dotSpec cosPool1 0 1 : ℚ) : ℝ) /
            Real.sqrt ((compute_word_norms cosPool1 0 *
              compute_word_norms cosPool1 1 : ℚ) : ℝ)) :=
  cosine_pipeline_correct.1 cosPool1 0 1 (by decide)
    ⟨⟨0, 0x100, 3⟩, by simp [cosPool1], ⟨1, 0x100, 5⟩, by simp [cosPool1],
      rfl, rfl, rfl⟩
